import Mathlib

/-!
Verification development for the `openapi-enum-arrays` plugin.

The TypeScript sources (`src/parser.ts`, `src/semantic-naming.ts`,
`src/generator.ts`, `src/plugin.ts`) are shallowly embedded below.
Strings are modelled as Lean `String` (a wrapper around `List Char`);
all character-level operations are spelled out on `List Char` so that
each JavaScript regex / string-method call has an explicit, executable
Lean counterpart.  The input surface of the tool is ASCII, so the
ASCII-only case conversions below coincide with the JavaScript ones on
every input the program handles.
-/

/-! ## Character classes and elementary string operations -/

/-- ASCII upper-case letter (JS regex class `[A-Z]`). -/
def isAsciiUpper (c : Char) : Bool := 'A' ≤ c && c ≤ 'Z'

/-- ASCII lower-case letter (JS regex class `[a-z]`). -/
def isAsciiLower (c : Char) : Bool := 'a' ≤ c && c ≤ 'z'

/-- ASCII digit (JS regex class `\d`). -/
def isAsciiDigit (c : Char) : Bool := '0' ≤ c && c ≤ '9'

/-- ASCII letter. -/
def isAsciiLetter (c : Char) : Bool := isAsciiUpper c || isAsciiLower c

/-- JS regex word character `\w` = `[A-Za-z0-9_]`. -/
def isWordChar (c : Char) : Bool := isAsciiUpper c || isAsciiLower c || isAsciiDigit c || c = '_'

/-- Whitespace as matched by JS `\s` / removed by `String.prototype.trim`
(restricted to the ASCII range: space, tab, line feed, carriage return,
vertical tab, form feed). -/
def isJsWhitespace (c : Char) : Bool :=
  c = ' ' || c = '\t' || c = '\n' || c = '\r' || c = Char.ofNat 11 || c = Char.ofNat 12

/-- `String.prototype.toLowerCase` on one character (ASCII range). -/
def jsToLowerChar (c : Char) : Char :=
  if isAsciiUpper c then Char.ofNat (c.toNat + 32) else c

/-- `String.prototype.toUpperCase` on one character (ASCII range). -/
def jsToUpperChar (c : Char) : Char :=
  if isAsciiLower c then Char.ofNat (c.toNat - 32) else c

/-- `s.toLowerCase()`. -/
def toLowerS (s : String) : String := String.mk (s.data.map jsToLowerChar)

/-- `str.charAt(0).toUpperCase() + str.slice(1)` (the `capitalizeFirst`
helper that appears in `generator.ts` and `semantic-naming.ts`). -/
def capitalizeFirst (s : String) : String :=
  match s.data with
  | [] => ""
  | c :: cs => String.mk (jsToUpperChar c :: cs)

/-- `typeName.charAt(0).toLowerCase() + typeName.slice(1)`. -/
def lowerFirst (s : String) : String :=
  match s.data with
  | [] => ""
  | c :: cs => String.mk (jsToLowerChar c :: cs)

/-- `String.prototype.trim` on a character list. -/
def trimL (cs : List Char) : List Char :=
  ((cs.dropWhile isJsWhitespace).reverse.dropWhile isJsWhitespace).reverse

/-- `s.trim()`. -/
def trimS (s : String) : String := String.mk (trimL s.data)

/-- `s.startsWith(pat)`. -/
def startsWithS (s pat : String) : Bool := pat.data.isPrefixOf s.data

/-- `s.endsWith(pat)`. -/
def endsWithS (s pat : String) : Bool := pat.data.isSuffixOf s.data

/-- Substring test on character lists (used to model `s.includes(pat)`). -/
def listIsInfixOf (pat : List Char) : List Char → Bool
  | [] => pat.isEmpty
  | c :: t => pat.isPrefixOf (c :: t) || listIsInfixOf pat t

/-- `s.includes(pat)`. -/
def strIncludes (s pat : String) : Bool := listIsInfixOf pat.data s.data

/-- `String.prototype.split` with a one-character separator, on character
lists.  Like in JS, the result is never empty and keeps empty segments
(`"a..b".split "." = ["a", "", "b"]`, `"".split "." = [""]`). -/
def splitOnCharL (sep : Char) : List Char → List (List Char)
  | [] => [[]]
  | c :: cs =>
    match splitOnCharL sep cs with
    | [] => [[]]
    | h :: t => if c = sep then [] :: h :: t else (c :: h) :: t

/-- `s.split(sep)` for a one-character separator. -/
def splitS (sep : Char) (s : String) : List String :=
  (splitOnCharL sep s.data).map String.mk

/-- `Array.prototype.join(sep)` on strings. -/
def joinSepS (sep : String) : List String → String
  | [] => ""
  | [s] => s
  | s :: rest => s ++ sep ++ joinSepS sep rest

/-- `s.replace(pat, rep)` with a plain-string pattern: JS replaces only the
first occurrence of `pat` (and inserts `rep` in front when `pat` is empty). -/
def replaceFirstL (pat rep : List Char) : List Char → List Char
  | [] => if pat.isEmpty then rep else []
  | c :: cs =>
    if pat.isPrefixOf (c :: cs) then rep ++ (c :: cs).drop pat.length
    else c :: replaceFirstL pat rep cs

/-- `s.replace(pat, rep)` (first occurrence only). -/
def replaceFirstS (s pat rep : String) : String :=
  String.mk (replaceFirstL pat.data rep.data s.data)

/-- `arr.pop() || null` on the result of a `split`: the last element,
with the empty string coerced to "null". -/
def jsPop (parts : List String) : Option String :=
  match parts.getLast? with
  | some s => if s = "" then none else some s
  | none => none

/-- The single-quote character (ASCII 39). -/
def sQuoteC : Char := Char.ofNat 39

/-- The double-quote character (ASCII 34). -/
def dQuoteC : Char := Char.ofNat 34

/-- The backtick character (ASCII 96). -/
def bQuoteC : Char := Char.ofNat 96

/-- Quote characters accepted by the literal matcher `['"`]`. -/
def isQuoteChar (c : Char) : Bool := c = sQuoteC || c = dQuoteC || c = bQuoteC

/-! ## Data model (`src/types.ts`)

`EnumInfo` is the record produced by the extractor and consumed by the
generator: a semantic name, the ordered deduplicated literal values, and
the structural path `originalTypePath` recording where the union was
found. -/

structure EnumInfo where
  name : String
  values : List String
  originalTypePath : String
deriving DecidableEq, Repr

/-! ## `SemanticNaming` (`src/semantic-naming.ts`)

`generateName(values, originalTypePath)` derives the first-pass semantic
name of a record.  The JS code treats a missing or empty path as falsy;
we model the path as a `String` and test for `""` where the source tests
truthiness. -/

/-- Leading HTTP verb of the pattern `^(Get|Post|Put|Delete|Patch)`;
returns the remaining characters on success (alternatives tried in the
order they appear in the regex). -/
def stripVerb (cs : List Char) : Option (List Char) :=
  if "Get".data.isPrefixOf cs then some (cs.drop 3)
  else if "Post".data.isPrefixOf cs then some (cs.drop 4)
  else if "Put".data.isPrefixOf cs then some (cs.drop 3)
  else if "Delete".data.isPrefixOf cs then some (cs.drop 6)
  else if "Patch".data.isPrefixOf cs then some (cs.drop 5)
  else none

/-- Scans for two adjacent characters upper-then-lower (`[A-Z][a-z]`),
failing at the first line feed: this is the reachability condition of the
trailing group of `^(Get|Post|Put|Delete|Patch)V\d+.*?([A-Z][a-z]+...)`
(the lazy gap `.*?` cannot cross a newline). -/
def hasCapLowerNoNewline : List Char → Bool
  | c1 :: c2 :: rest =>
    if c1 = '\n' then false
    else if isAsciiUpper c1 && isAsciiLower c2 then true
    else hasCapLowerNoNewline (c2 :: rest)
  | _ => false

/-- Whether `p.match(/^(Get|Post|Put|Delete|Patch)V\d+.*?([A-Z][a-z]+(?:[A-Z][a-z]*)*)/g)`
is non-null: the path starts with a verb, then `V` and at least one
digit, and a capital-then-lower pair occurs later with no newline in
between. -/
def openApiPatternMatches (p : String) : Bool :=
  match stripVerb p.data with
  | some rest =>
    match rest with
    | 'V' :: d :: tail => isAsciiDigit d && hasCapLowerNoNewline tail
    | _ => false
  | none => false

/-- Scanner state machine for the matches of
`([A-Z][a-z]+(?:[A-Z][a-z]*)*)/g`: a match begins at a capital letter
immediately followed by a lower-case letter, and — because the greedy
groups consume every further capital together with its trailing
lower-case run — extends to the maximal run of letters from there.  The
accumulator holds the reversed characters of the match in progress. -/
def capRunsAux : List Char → Option (List Char) → List String
  | [], acc =>
    (match acc with | some run => [String.mk run.reverse] | none => [])
  | c :: cs, some run =>
    if isAsciiLetter c then capRunsAux cs (some (c :: run))
    else String.mk run.reverse :: capRunsAux cs none
  | c :: cs, none =>
    if isAsciiUpper c && (match cs.head? with | some c2 => isAsciiLower c2 | none => false)
    then capRunsAux cs (some [c])
    else capRunsAux cs none

/-- All matches of `([A-Z][a-z]+(?:[A-Z][a-z]*)*)/g` in order (the
`resourceMatch` of `extractDomainFromOpenApiPath`). -/
def capWordRuns (cs : List Char) : List String := capRunsAux cs none

/-- The match of `^([A-Z][a-z]+)` (a capital followed by at least one
lower-case letter, greedy): models the `simpleMatch` of
`extractDomainFromOpenApiPath`. -/
def simpleLeadingCapWord (cs : List Char) : Option String :=
  match cs with
  | c1 :: rest =>
    if isAsciiUpper c1 then
      let lows := rest.takeWhile isAsciiLower
      if lows.isEmpty then none else some (String.mk (c1 :: lows))
    else none
  | [] => none

/-- `SemanticNaming.extractDomainFromOpenApiPath`. -/
def extractDomainFromOpenApiPath (p : String) : Option String :=
  if p = "" then none
  else
    let fromOpenApi : Option String :=
      if openApiPatternMatches p then
        match capWordRuns p.data with
        | [] => none
        | r :: rs =>
          let meaningful := (r :: rs).filter
            (fun n => !((["Data", "Response", "Request", "Query", "Body", "Params"] : List String).contains n))
          match meaningful.getLast? with
          | some d => some (lowerFirst d)
          | none => none
      else none
    match fromOpenApi with
    | some d => some d
    | none =>
      match simpleLeadingCapWord p.data with
      | some objectName =>
        if (["Query", "Request", "Response", "Data"] : List String).contains objectName then none
        else some (lowerFirst objectName)
      | none => none

/-- `SemanticNaming.extractTypeFromOpenApiPath`. -/
def extractTypeFromOpenApiPath (p : String) : Option String :=
  if p = "" || !(p.data.contains '.') then none
  else jsPop (splitS '.' p)

/-- Match of `/^export type (\w+)$/` (used on standalone paths). -/
def matchStandaloneTypePath (p : String) : Option String :=
  if "export type ".data.isPrefixOf p.data then
    let rest := p.data.drop 12
    if !rest.isEmpty && rest.all isWordChar then some (String.mk rest) else none
  else none

/-- `SemanticNaming.extractPropertyName`. -/
def extractPropertyName (p : String) : Option String :=
  if p = "" then none
  else if p.data.contains '.' then jsPop (splitS '.' p)
  else
    match matchStandaloneTypePath p with
    | some w => some (toLowerS w)
    | none => none

/-- `s.substring(a, b)` (clamped like in JS for in-range `a ≤ b`). -/
def jsSubstring (s : String) (a b : Nat) : String :=
  String.mk ((s.data.drop a).take (b - a))

/-- `SemanticNaming.generateFromValues`: fallback name synthesized from
the first (up to) two values; `x || y` coerces the empty string to the
alternative. -/
def generateFromValues (values : List String) : String :=
  let pre :=
    match values.head? with
    | some v => let t := jsSubstring (toLowerS v) 0 3; if t = "" then "enum" else t
    | none => "enum"
  let suf :=
    if values.length > 1 then
      match values[1]? with
      | some v => jsSubstring (toLowerS v) 0 2
      | none => ""
    else ""
  pre ++ suf ++ "Values"

/-- `SemanticNaming.generateName`. -/
def generateName (values : List String) (originalTypePath : String) : String :=
  let openApiDomain := extractDomainFromOpenApiPath originalTypePath
  let openApiType := extractTypeFromOpenApiPath originalTypePath
  match openApiDomain with
  | some d =>
    match openApiType with
    | some t => d ++ capitalizeFirst t
    | none => d
  | none =>
    match extractPropertyName originalTypePath with
    | some propertyName => propertyName ++ "Values"
    | none => generateFromValues values

/-! ## Union-value extraction (`extractEnumValues`)

The same function appears verbatim as `EnumParser.extractEnumValues`
(`src/parser.ts`) and `UnionExtractor.extractEnumValues`
(`src/semantic-naming.ts`). -/

/-- Insertion into a JS `Set` realized as a duplicate-free list in
insertion order (`Array.from` of the set returns this list). -/
def insertFS (l : List (List Char)) (v : List Char) : List (List Char) :=
  if l.contains v then l else l ++ [v]

/-- Match of `/Array<([^>]+)>/` exactly at the start of `cs`: the literal
`Array<`, then a non-empty greedy run of characters other than `>`,
then `>`.  Returns the capture group. -/
def arrayInnerAt (cs : List Char) : Option (List Char) :=
  if "Array<".data.isPrefixOf cs then
    let rest := cs.drop 6
    let run := rest.takeWhile (fun c => c ≠ '>')
    if run.isEmpty then none
    else if (rest.drop run.length).isEmpty then none
    else some run
  else none

/-- Leftmost match of `typeDefinition.match(/Array<([^>]+)>/)`: the regex
engine tries each start position from the left. -/
def findArrayInner : List Char → Option (List Char)
  | [] => none
  | c :: cs =>
    match arrayInnerAt (c :: cs) with
    | some r => some r
    | none => findArrayInner cs

/-- Match of one union segment against `/^(['"`])(.+?)\1$/`: a quote
character, at least one middle character (`.` does not cross line
breaks), and the same quote character at the end.  Returns the unquoted
value. -/
def matchQuotedLiteral (cs : List Char) : Option (List Char) :=
  match cs with
  | [] => none
  | q :: rest =>
    if isQuoteChar q then
      match rest.getLast? with
      | some lastc =>
        if lastc = q && rest.length ≥ 2 then
          let mid := rest.dropLast
          if mid.contains '\n' || mid.contains '\r' then none else some mid
        else none
      | none => none
    else none

/-- `extractEnumValues` on character lists, with an explicit recursion
budget: if an `Array<...>` wrapper matches anywhere, recurse into its
capture and collect the result into a fresh set; otherwise, if the
expression contains `|`, split on `|`, trim each part, and collect the
parts that are exactly one quoted literal.  The capture of a match is a
proper sub-segment of the expression, so with the expression's length as
the budget the zero case is never reached (see
`extractEnumValuesFuel_congr`). -/
def extractEnumValuesFuel : Nat → List Char → List (List Char)
  | 0, _ => []
  | fuel + 1, td =>
    match findArrayInner td with
    | some inner => (extractEnumValuesFuel fuel inner).foldl insertFS []
    | none =>
      if td.contains '|' then
        ((splitOnCharL '|' td).map trimL).foldl
          (fun vals part =>
            match matchQuotedLiteral part with
            | some v => insertFS vals v
            | none => vals) []
      else []

/-- `extractEnumValues` on character lists. -/
def extractEnumValuesL (td : List Char) : List (List Char) :=
  extractEnumValuesFuel td.length td

/-! ## `CodeGenerator` (`src/generator.ts`) -/

/-- Match of `/^(\w+)\./` : a non-empty leading word-character run
followed immediately by a dot; returns the capture. -/
def leadingWordDot (p : String) : Option String :=
  let run := p.data.takeWhile isWordChar
  if !run.isEmpty &&
      (match (p.data.drop run.length).head? with | some c => c = '.' | none => false)
  then some (String.mk run) else none

/-- `CodeGenerator.extractContextForConflict`: derives a context
qualifier (`query` / `request` / `response`) from a structural path; the
checks run in source order and all `includes` tests are case sensitive. -/
def extractContextForConflict (originalTypePath : String) : Option String :=
  if strIncludes originalTypePath ".query." then some "query"
  else if strIncludes originalTypePath ".body." then some "request"
  else if strIncludes originalTypePath "ResponseData." then some "response"
  else if startsWithS originalTypePath "Get" && strIncludes originalTypePath "Data." then
    some "query"
  else if (startsWithS originalTypePath "Post" || startsWithS originalTypePath "Put") &&
      strIncludes originalTypePath "Data." then
    some "request"
  else if strIncludes originalTypePath "query" then some "query"
  else if strIncludes originalTypePath "body" || strIncludes originalTypePath "Request" then
    some "request"
  else if strIncludes originalTypePath "Response" then some "response"
  else
    match leadingWordDot originalTypePath with
    | some objectName0 =>
      let objectName := toLowerS objectName0
      if strIncludes objectName "query" then some "query"
      else if strIncludes objectName "request" || strIncludes objectName "post" ||
          strIncludes objectName "put" then some "request"
      else if strIncludes objectName "response" || strIncludes objectName "get" then
        some "response"
      else none
    | none => none

/-- `CodeGenerator.extractFieldName`: the last dot-segment of the path
(`parts[parts.length - 1] || null`). -/
def extractFieldName (originalTypePath : String) : Option String :=
  jsPop (splitS '.' originalTypePath)

/-- `CodeGenerator.generateContextualName`. -/
def generateContextualName (e : EnumInfo) : String :=
  match extractContextForConflict e.originalTypePath, extractFieldName e.originalTypePath with
  | some context, some fieldName => context ++ capitalizeFirst fieldName
  | some context, none => context ++ capitalizeFirst e.name
  | none, _ => e.name

/-- Generic terms penalized by the scoring of
`chooseBestEnumForMerging`. -/
def genericScoreTerms : List String :=
  ["data", "response", "request", "query", "body", "params"]

/-- The score a candidate receives in `chooseBestEnumForMerging`. -/
def jsScore (e : EnumInfo) : Int :=
  let lowerName := toLowerS e.name
  let s1 : Int := 50 - (e.name.length : Int)
  let s2 : Int := if genericScoreTerms.any (fun t => strIncludes lowerName t) then -20 else 0
  let s3 : Int :=
    if strIncludes lowerName "request" || strIncludes lowerName "response" ||
        strIncludes lowerName "query" then 10 else 0
  s1 + s2 + s3

/-- `CodeGenerator.chooseBestEnumForMerging`: the JS code sorts the
scored candidates with a stable sort, descending by score, and takes
element 0 — that is, the first candidate attaining the maximal score.
(The `[]` case is unreachable: callers pass groups of size at least 2.) -/
def chooseBestEnumForMerging : List EnumInfo → EnumInfo
  | [] => { name := "", values := [], originalTypePath := "" }
  | e :: rest => rest.foldl (fun best x => if jsScore x > jsScore best then x else best) e

/-- JS string comparison `a < b` on one character (code-unit order; for
the ASCII surface of this tool this is the code-point order). -/
def jsCharLt (a b : Char) : Bool := a.toNat < b.toNat

/-- JS string comparison `a <= b`: lexicographic in the character
order. -/
def jsStrLeL : List Char → List Char → Bool
  | [], _ => true
  | _ :: _, [] => false
  | a :: as, b :: bs =>
    if jsCharLt a b then true
    else if jsCharLt b a then false
    else jsStrLeL as bs

/-- JS string comparison `a <= b` on strings. -/
def jsStrLe (a b : String) : Bool := jsStrLeL a.data b.data

/-- Inserts a string into an already sorted list, after every element
less than or equal to it. -/
def insertSortedStr (a : String) : List String → List String
  | [] => [a]
  | b :: bs => if jsStrLe b a then b :: insertSortedStr a bs else a :: b :: bs

/-- JS `Array.prototype.sort()` on strings: ascending in the code-unit
order and stable.  A stable sort under a total preorder has a unique
result, so this left-to-right insertion sort (each element is placed
after the already-placed elements that compare less than or equal)
computes exactly the array `sort()` produces. -/
def jsSortStrings (l : List String) : List String :=
  l.foldl (fun acc x => insertSortedStr x acc) []

/-- `[...enumInfo.values].sort().join('|')`: the value-identity key used
by the merge pass. -/
def sortedValuesKey (e : EnumInfo) : String :=
  joinSepS "|" (jsSortStrings e.values)

/-- Keys of a JS `Map` built by pushing the listed keys in order:
first-seen order, duplicates removed. -/
def firstSeenKeys : List String → List String
  | [] => []
  | k :: ks => k :: (firstSeenKeys ks).filter (fun x => x ≠ k)

/-- First pass of `CodeGenerator.deduplicateEnums`: group by `name` (a JS
`Map` iterates keys in first-insertion order, each group in input
order); singleton groups pass through unchanged, members of larger
groups are renamed with `generateContextualName` (the spread
`{...enumInfo, name}` leaves `values` and `originalTypePath` intact). -/
def nameConflictPass (enums : List EnumInfo) : List EnumInfo :=
  (firstSeenKeys (enums.map (fun e => e.name))).flatMap (fun n =>
    let grp := enums.filter (fun e => e.name = n)
    if grp.length = 1 then grp
    else grp.map (fun e => { e with name := generateContextualName e }))

/-- `Map.prototype.set`: overwrites the value in place if the key is
present (keeping the key's original position), appends otherwise. -/
def mapSet (m : List (String × EnumInfo)) (k : String) (v : EnumInfo) :
    List (String × EnumInfo) :=
  if m.any (fun p => p.1 = k) then m.map (fun p => if p.1 = k then (k, v) else p)
  else m ++ [(k, v)]

/-- One iteration of the second pass of `deduplicateEnums`: the group of
records sharing the sorted-values key `k` contributes one record to
`enumMap` under the unique key `name + ":" + k`. -/
def valueMergeStep (enums : List EnumInfo) (m : List (String × EnumInfo)) (k : String) :
    List (String × EnumInfo) :=
  let grp := enums.filter (fun e => sortedValuesKey e = k)
  match grp with
  | [e] => mapSet m (e.name ++ ":" ++ k) e
  | _ =>
    let bestEnum := chooseBestEnumForMerging grp
    mapSet m (bestEnum.name ++ ":" ++ k) bestEnum

/-- Second pass of `CodeGenerator.deduplicateEnums`: group the records by
sorted-values key and collapse each group to one representative;
the output is `Array.from(enumMap.values())` in key-insertion order. -/
def valueMergePass (enums : List EnumInfo) : List EnumInfo :=
  ((firstSeenKeys (enums.map sortedValuesKey)).foldl (valueMergeStep enums) []).map
    (fun p => p.2)

/-- `CodeGenerator.deduplicateEnums`: the name-conflict pass followed by
the value-identity merge pass. -/
def deduplicateEnums (enums : List EnumInfo) : List EnumInfo :=
  valueMergePass (nameConflictPass enums)

/-- `CodeGenerator.toArrayName`: lower-case the first letter, then apply
the suffix-substitution table (`String.prototype.replace` with a string
pattern replaces the first occurrence), else append `Values`. -/
def toArrayName (typeName : String) : String :=
  let camelCase := lowerFirst typeName
  if endsWithS camelCase "Status" then replaceFirstS camelCase "Status" "Statuses"
  else if endsWithS camelCase "Type" then replaceFirstS camelCase "Type" "Types"
  else if endsWithS camelCase "Model" then replaceFirstS camelCase "Model" "Models"
  else if endsWithS camelCase "Role" then replaceFirstS camelCase "Role" "Roles"
  else if endsWithS camelCase "Source" then replaceFirstS camelCase "Source" "Sources"
  else if endsWithS camelCase "Mode" then replaceFirstS camelCase "Mode" "Modes"
  else camelCase ++ "Values"

/-- `CodeGenerator.generateHeader`. -/
def generateHeader : String := "// This file is auto-generated by openapi-enum-arrays"

/-- The declaration rendered for one record: the values are sorted
(`enumInfo.values.sort()`), quoted and comma-joined. -/
def renderArrayConstant (arrayPre : String) (e : EnumInfo) : String :=
  "export const " ++ arrayPre ++ toArrayName e.name ++ " = [" ++
    joinSepS ", " ((jsSortStrings e.values).map (fun v => "'" ++ v ++ "'")) ++ "] as const"

/-- `CodeGenerator.generateArrayConstants` (output text only; the
in-place effect of `.sort()` on the records is modelled separately by
`generateEnumArraysEff`). -/
def generateArrayConstants (enums : List EnumInfo) (arrayPre : String) : String :=
  joinSepS "\n" (enums.map (renderArrayConstant arrayPre))

/-- `CodeGenerator.generateEnumArrays`: the header is never empty, so
`[header, arrays].filter(Boolean).join('\n\n')` drops only an empty
`arrays` block. -/
def generateEnumArrays (enums : List EnumInfo) (arrayPre : String) : String :=
  let deduplicatedEnums := deduplicateEnums enums
  let header := generateHeader
  let arrays := generateArrayConstants deduplicatedEnums arrayPre
  if arrays = "" then header else header ++ "\n\n" ++ arrays

/-! ## `EnumParser` (`src/parser.ts` / `src/semantic-naming.ts`)

The extraction pass: sub-scan A matches standalone `export type X = ...`
declarations line by line (the `gm` regex is anchored with `^...$`, and
`.` cannot cross a newline, so each match lies within one line); sub-scan
B walks the lines with a `ScopeTracker`. -/

/-- The opening-brace character (ASCII 123). -/
def lBraceC : Char := Char.ofNat 123

/-- The closing-brace character (ASCII 125). -/
def rBraceC : Char := Char.ofNat 125

/-- `content.split('\n')`. -/
def linesOf (content : String) : List String := splitS '\n' content

/-- Shared head of the regexes `^export type\s+(\w+)\s*=\s*\{?/` and
`^export type\s+(\w+)\s*=\s*(.+);?$`: the literal `export type`, at
least one whitespace character, a word-character run (the capture), any
whitespace, and `=`.  Returns the capture and what follows the `=`.
(The greedy `\s+`/`\w+` runs are deterministic here because the classes
are disjoint and the characters following them are in neither class.) -/
def matchTypeDefHead (cs : List Char) : Option (String × List Char) :=
  if "export type".data.isPrefixOf cs then
    let r1 := cs.drop 11
    let ws := r1.takeWhile isJsWhitespace
    if ws.isEmpty then none
    else
      let r2 := r1.drop ws.length
      let w := r2.takeWhile isWordChar
      if w.isEmpty then none
      else
        let r3 := (r2.drop w.length).dropWhile isJsWhitespace
        match r3 with
        | '=' :: rest => some (String.mk w, rest)
        | _ => none
  else none

/-- `PropertyDetector.extractTypeDefinitionName`: match of
`/^export type\s+(\w+)\s*=\s*\{?/` (the trailing `\s*\{?` always
succeeds, so only the head matters). -/
def extractTypeDefinitionName (line : String) : Option String :=
  (matchTypeDefHead line.data).map (fun p => p.1)

/-- Group 2 of `^export type\s+(\w+)\s*=\s*(.+);?$` given the characters
after the `=`: the greedy `\s*` swallows the leading whitespace and
`(.+)` the rest of the line; when nothing but whitespace follows, the
regex backtracks and captures the final whitespace character. -/
def typeDefExprOfRest (rest : List Char) : Option (List Char) :=
  let ws := rest.takeWhile isJsWhitespace
  let body := rest.drop ws.length
  if body.isEmpty then
    match ws.getLast? with
    | some c => some [c]
    | none => none
  else some body

/-- `typeDefinition.replace(/;$/, '')`. -/
def stripTrailingSemi (cs : List Char) : List Char :=
  match cs.getLast? with
  | some c => if c = ';' then cs.dropLast else cs
  | none => cs

/-- `typeDefinition.replace(/[;,]$/, '')`. -/
def stripTrailingSemiComma (cs : List Char) : List Char :=
  match cs.getLast? with
  | some c => if c = ';' || c = ',' then cs.dropLast else cs
  | none => cs

/-- `extractEnumValues` lifted back to strings. -/
def extractEnumValues (typeDefinition : String) : List String :=
  (extractEnumValuesL typeDefinition.data).map String.mk

/-- One iteration of the `typeDefRegex` exec loop of
`EnumParser.parseStandaloneTypes`, applied to a single line. -/
def standaloneRecordOfLine (line : String) : Option EnumInfo :=
  match matchTypeDefHead line.data with
  | some (typeName, rest) =>
    match typeDefExprOfRest rest with
    | some expr =>
      let cleanTypeDefinition := trimL (stripTrailingSemi expr)
      let enumValues := (extractEnumValuesL cleanTypeDefinition).map String.mk
      if enumValues.isEmpty then none
      else
        let originalTypePath := "export type " ++ typeName
        some { name := generateName enumValues originalTypePath
               values := enumValues
               originalTypePath := originalTypePath }
    | none => none
  | none => none

/-- `EnumParser.parseStandaloneTypes` (sub-scan A). -/
def parseStandaloneTypes (content : String) : List EnumInfo :=
  (linesOf content).filterMap standaloneRecordOfLine

/-- `TypeScriptTokenizer.shouldSkipLine`. -/
def shouldSkipLine (line : String) : Bool :=
  line = "" || startsWithS line "//" || startsWithS line "*" ||
    startsWithS line "/*" || startsWithS line "/**"

/-- `TypeScriptTokenizer.countOccurrences` for a single character. -/
def countOccurrences (s : String) (c : Char) : Nat :=
  (s.data.filter (fun x => x = c)).length

/-- After a candidate `(\w+)` run, does `\??\s*:\s*\{` match?  (Used for
`PropertyDetector.extractNestedObjectProperty`; the optional `?` and the
whitespace runs are deterministic.) -/
def afterRunMatchesObj (rest : List Char) : Bool :=
  let rest1 := match rest with | '?' :: t => t | _ => rest
  let rest2 := rest1.dropWhile isJsWhitespace
  match rest2 with
  | ':' :: t =>
    match t.dropWhile isJsWhitespace with
    | c :: _ => c = lBraceC
    | [] => false
  | _ => false

/-- Leftmost-match scan for an unanchored regex of shape
`(\w+)<suffix>`: like the regex engine, try every start position from
the left; at a word character the greedy `(\w+)` takes the maximal run
from there and `f` examines what follows the run.  (Start positions
inside a failed run fail identically, since the run's end — and hence
the examined remainder — is the same.) -/
def scanWordRuns (f : List Char → Bool) : List Char → Option String
  | [] => none
  | c :: cs =>
    if isWordChar c then
      if f (cs.drop (cs.takeWhile isWordChar).length)
      then some (String.mk (c :: cs.takeWhile isWordChar))
      else scanWordRuns f cs
    else scanWordRuns f cs

/-- `PropertyDetector.extractNestedObjectProperty`: leftmost match of
`/(\w+)\??\s*:\s*\{/`. -/
def extractNestedObjectProperty (line : String) : Option String :=
  scanWordRuns afterRunMatchesObj line.data

/-- After a candidate `(\w+)` run, the capture of
`\??\s*:\s*(.+?)(?:[;,]|$)` if it matches: the lazy `(.+?)` takes at
least one character and stops before the first `;` or `,` after it (or
at the end of the line); when only whitespace follows the `:`, the
greedy `\s*` backtracks and the final whitespace character is captured. -/
def afterRunUnionCapture (rest : List Char) : Option (List Char) :=
  let rest1 := match rest with | '?' :: t => t | _ => rest
  let rest2 := rest1.dropWhile isJsWhitespace
  match rest2 with
  | ':' :: t =>
    let rest3 := t.dropWhile isJsWhitespace
    match rest3 with
    | c :: t3 => some (c :: t3.takeWhile (fun x => x ≠ ';' && x ≠ ','))
    | [] =>
      match t.getLast? with
      | some c => some [c]
      | none => none
  | _ => none

/-- Leftmost-match scan like `scanWordRuns`, returning the run together
with a payload computed from the characters after it. -/
def scanWordRunsP (f : List Char → Option (List Char)) :
    List Char → Option (String × List Char)
  | [] => none
  | c :: cs =>
    if isWordChar c then
      match f (cs.drop (cs.takeWhile isWordChar).length) with
      | some payload => some (String.mk (c :: cs.takeWhile isWordChar), payload)
      | none => scanWordRunsP f cs
    else scanWordRunsP f cs

/-- `PropertyDetector.extractUnionTypeProperty`: leftmost match of
`/(\w+)\??\s*:\s*(.+?)(?:[;,]|$)/`; the reported type definition is the
trimmed second capture. -/
def extractUnionTypeProperty (line : String) : Option (String × String) :=
  (scanWordRunsP afterRunUnionCapture line.data).map
    (fun p => (p.1, String.mk (trimL p.2)))

/-- First index of a character (`String.prototype.indexOf`). -/
def firstIndexOf? : List Char → Char → Option Nat
  | [], _ => none
  | x :: xs, c => if x = c then some 0 else (firstIndexOf? xs c).map (fun n => n + 1)

/-- Minimum of two optional indices, `none` playing the role of
JS `Infinity`. -/
def optMin : Option Nat → Option Nat → Option Nat
  | none, b => b
  | a, none => a
  | some x, some y => some (min x y)

/-- `PropertyDetector.hasObjectOpeningBrace`: after the first `:`, an
opening brace exists and comes before the first quote character. -/
def hasObjectOpeningBrace (line : String) : Bool :=
  match firstIndexOf? line.data ':' with
  | none => false
  | some colonIndex =>
    let afterColon := line.data.drop (colonIndex + 1)
    match firstIndexOf? afterColon lBraceC with
    | none => false
    | some braceIndex =>
      match optMin (firstIndexOf? afterColon sQuoteC)
          (optMin (firstIndexOf? afterColon dQuoteC) (firstIndexOf? afterColon bQuoteC)) with
      | none => true
      | some firstQuoteIndex => braceIndex < firstQuoteIndex

/-- `ScopeTracker` state (`src/semantic-naming.ts`). -/
structure ScopeTracker where
  contextPath : List String
  nestingLevel : Int
  isInTypeDefinition : Bool
deriving DecidableEq, Repr

/-- The fresh tracker (`new ScopeTracker()`). -/
def ScopeTracker.initial : ScopeTracker :=
  { contextPath := [], nestingLevel := 0, isInTypeDefinition := false }

/-- `ScopeTracker.startTypeDefinition`. -/
def ScopeTracker.startTypeDefinition (_st : ScopeTracker) (typeName : String) : ScopeTracker :=
  { contextPath := [typeName], nestingLevel := 0, isInTypeDefinition := true }

/-- `ScopeTracker.enterNestedObject`. -/
def ScopeTracker.enterNestedObject (st : ScopeTracker) (propertyName : String)
    (braceCount : Nat) : ScopeTracker :=
  { st with contextPath := st.contextPath ++ [propertyName]
            nestingLevel := st.nestingLevel + braceCount }

/-- The pop loop of `ScopeTracker.exitScope`: `braceCount` times, pop the
last segment if more than one segment remains. -/
def popSegments (l : List String) : Nat → List String
  | 0 => l
  | n + 1 => popSegments (if l.length > 1 then l.dropLast else l) n

/-- `ScopeTracker.exitScope`. -/
def ScopeTracker.exitScope (st : ScopeTracker) (braceCount : Nat) : ScopeTracker :=
  let lvl := st.nestingLevel - braceCount
  let path := popSegments st.contextPath braceCount
  if lvl ≤ 0 then { contextPath := [], nestingLevel := 0, isInTypeDefinition := false }
  else { contextPath := path, nestingLevel := lvl, isInTypeDefinition := st.isInTypeDefinition }

/-- `ScopeTracker.adjustNestingLevel`. -/
def ScopeTracker.adjustNestingLevel (st : ScopeTracker) (braceCount : Nat) : ScopeTracker :=
  { st with nestingLevel := st.nestingLevel + braceCount }

/-- One line of `EnumParser.extractEnumsFromNestedTypeProperties`
(sub-scan B), following the source's control flow: `continue` after a
type-definition line or a nested-object line; a union-of-literals line
with context either opens a nested object (when the brace precedes any
quote) or records an enum; closing braces are processed unless the line
`continue`d; a remaining opening brace on an otherwise unrecognized line
adjusts the nesting level. -/
def nestedScanLine (found : List EnumInfo) (st : ScopeTracker) (rawLine : String) :
    List EnumInfo × ScopeTracker :=
  let cleanLine := trimS rawLine
  if shouldSkipLine cleanLine then (found, st)
  else
    match extractTypeDefinitionName cleanLine with
    | some typeDefinitionName =>
      let st1 := st.startTypeDefinition typeDefinitionName
      (found, if strIncludes cleanLine "\x7b" then st1.adjustNestingLevel 1 else st1)
    | none =>
      if !st.isInTypeDefinition then (found, st)
      else
        let openingBraceCount := countOccurrences cleanLine lBraceC
        let closingBraceCount := countOccurrences cleanLine rBraceC
        match extractNestedObjectProperty cleanLine with
        | some nestedObjectPropertyName =>
          (found, st.enterNestedObject nestedObjectPropertyName openingBraceCount)
        | none =>
          match extractUnionTypeProperty cleanLine with
          | some (propertyName, typeDefinition) =>
            if st.contextPath.isEmpty then
              (found, if closingBraceCount > 0 then st.exitScope closingBraceCount else st)
            else if hasObjectOpeningBrace cleanLine then
              (found, st.enterNestedObject propertyName openingBraceCount)
            else
              let cleanTypeDefinition := trimL (stripTrailingSemiComma typeDefinition.data)
              let enumValues := (extractEnumValuesL cleanTypeDefinition).map String.mk
              let found2 :=
                if enumValues.isEmpty then found
                else
                  let fullPropertyPath := joinSepS "." (st.contextPath ++ [propertyName])
                  found ++ [{ name := generateName enumValues fullPropertyPath
                              values := enumValues
                              originalTypePath := fullPropertyPath }]
              (found2, if closingBraceCount > 0 then st.exitScope closingBraceCount else st)
          | none =>
            let st1 := if closingBraceCount > 0 then st.exitScope closingBraceCount else st
            (found, if openingBraceCount > 0 then st1.adjustNestingLevel openingBraceCount else st1)

/-- One line of the scan as a fold step over the pair of accumulated
records and tracker state. -/
def nestedScanStep (acc : List EnumInfo × ScopeTracker) (rawLine : String) :
    List EnumInfo × ScopeTracker :=
  nestedScanLine acc.1 acc.2 rawLine

/-- `EnumParser.extractEnumsFromNestedTypeProperties` (sub-scan B). -/
def extractEnumsFromNestedTypeProperties (content : String) : List EnumInfo :=
  ((linesOf content).foldl nestedScanStep ([], ScopeTracker.initial)).1

/-- `EnumParser.parseEnumsFromTypeFile`: sub-scan A followed by
sub-scan B. -/
def parseEnumsFromTypeFile (content : String) : List EnumInfo :=
  parseStandaloneTypes content ++ extractEnumsFromNestedTypeProperties content

/-! ## Plugin handler (`src/plugin.ts`)

The pure core of `handler`: after reading the types file, the records
are parsed, the include filter is applied (when configured), then the
exclude filter, and the result is handed to
`CodeGenerator.generateEnumArrays`.  A configured-but-empty include list
keeps nothing, like in JS. -/

/-- The include filter of `handler`. -/
def applyIncludePatterns (includePatterns : Option (List String))
    (enums : List EnumInfo) : List EnumInfo :=
  match includePatterns with
  | none => enums
  | some patterns => enums.filter (fun e => patterns.any (fun pat => strIncludes e.name pat))

/-- The exclude filter of `handler`. -/
def applyExcludePatterns (excludePatterns : Option (List String))
    (enums : List EnumInfo) : List EnumInfo :=
  match excludePatterns with
  | none => enums
  | some patterns => enums.filter (fun e => !patterns.any (fun pat => strIncludes e.name pat))

/-- The pure pipeline run by `handler` on the types-file content. -/
def handlerCore (typesContent : String) (includePatterns excludePatterns : Option (List String))
    (arrayPre : String) : String :=
  let enums := parseEnumsFromTypeFile typesContent
  let enums := applyIncludePatterns includePatterns enums
  let enums := applyExcludePatterns excludePatterns enums
  generateEnumArrays enums arrayPre

/-! ## Auxiliary definitions for the stated properties -/

/-- Modelled from the spec: "a filter configuration (include/exclude
name patterns) applied after deduplication and before emission" — the
comparison pipeline that parses, deduplicates the full record set first,
then filters the surviving records by name, and emits the remainder. -/
def specFilterAfterDedupPipeline (typesContent : String)
    (includePatterns excludePatterns : Option (List String)) (arrayPre : String) : String :=
  let enums := parseEnumsFromTypeFile typesContent
  let deduped := deduplicateEnums enums
  let kept := applyExcludePatterns excludePatterns (applyIncludePatterns includePatterns deduped)
  let arrays := generateArrayConstants kept arrayPre
  if arrays = "" then generateHeader else generateHeader ++ "\n\n" ++ arrays

/-- The suffix-substitution table of `toArrayName`, in the order the
branches are tried. -/
def suffixTable : List (String × String) :=
  [("Status", "Statuses"), ("Type", "Types"), ("Model", "Models"),
   ("Role", "Roles"), ("Source", "Sources"), ("Mode", "Modes")]

/-- Names captured by type-definition lines of the input (the candidates
for the root segment of the nested sub-scan's context path). -/
def typeDefNames (content : String) : List String :=
  (linesOf content).filterMap (fun ln => extractTypeDefinitionName (trimS ln))

/-! ## Object identity and the in-place sort of emission

`generateArrayConstants` calls `enumInfo.values.sort()`, which sorts the
survivor's `values` array in place.  Survivors of `deduplicateEnums`
alias the `values` arrays of the input records (records pass through the
passes either as the same object or as a spread copy `{...enumInfo,
name}` sharing the same `values` array), so the call mutates the input
records.  To state this, the deduplication is replayed on records tagged
with their input position — the tag models the identity of the `values`
array — mirroring the untagged code line by line. -/

/-- `chooseBestEnumForMerging` on tagged records (the scores ignore the
tag). -/
def chooseBestEnumForMergingT : List (Nat × EnumInfo) → Nat × EnumInfo
  | [] => (0, { name := "", values := [], originalTypePath := "" })
  | e :: rest => rest.foldl (fun best x => if jsScore x.2 > jsScore best.2 then x else best) e

/-- The name-conflict pass on tagged records. -/
def nameConflictPassT (enums : List (Nat × EnumInfo)) : List (Nat × EnumInfo) :=
  (firstSeenKeys (enums.map (fun e => e.2.name))).flatMap (fun n =>
    let grp := enums.filter (fun e => e.2.name = n)
    if grp.length = 1 then grp
    else grp.map (fun e => (e.1, { e.2 with name := generateContextualName e.2 })))

/-- `Map.prototype.set` on tagged records. -/
def mapSetT (m : List (String × (Nat × EnumInfo))) (k : String) (v : Nat × EnumInfo) :
    List (String × (Nat × EnumInfo)) :=
  if m.any (fun p => p.1 = k) then m.map (fun p => if p.1 = k then (k, v) else p)
  else m ++ [(k, v)]

/-- One iteration of the value-merge pass on tagged records. -/
def valueMergeStepT (enums : List (Nat × EnumInfo)) (m : List (String × (Nat × EnumInfo)))
    (k : String) : List (String × (Nat × EnumInfo)) :=
  let grp := enums.filter (fun e => sortedValuesKey e.2 = k)
  match grp with
  | [e] => mapSetT m (e.2.name ++ ":" ++ k) e
  | _ =>
    let bestEnum := chooseBestEnumForMergingT grp
    mapSetT m (bestEnum.2.name ++ ":" ++ k) bestEnum

/-- The value-merge pass on tagged records. -/
def valueMergePassT (enums : List (Nat × EnumInfo)) : List (Nat × EnumInfo) :=
  ((firstSeenKeys (enums.map (fun e => sortedValuesKey e.2))).foldl (valueMergeStepT enums) []).map
    (fun p => p.2)

/-- `deduplicateEnums` on tagged records. -/
def deduplicateEnumsT (enums : List (Nat × EnumInfo)) : List (Nat × EnumInfo) :=
  valueMergePassT (nameConflictPassT enums)

/-- The input positions whose `values` arrays are aliased by a survivor
of the deduplication. -/
def survivorIndices (enums : List EnumInfo) : List Nat :=
  (deduplicateEnumsT enums.enum).map (fun p => p.1)

/-- `generateEnumArrays` together with its effect on the input records:
the output text, and the post-call state of the input list —
`enumInfo.values.sort()` in `generateArrayConstants` has sorted, in
place, the `values` array of every record chosen as a survivor. -/
def generateEnumArraysEff (enums : List EnumInfo) (arrayPre : String) :
    String × List EnumInfo :=
  let surv := survivorIndices enums
  (generateEnumArrays enums arrayPre,
   enums.enum.map (fun p =>
     if surv.contains p.1 then { p.2 with values := jsSortStrings p.2.values } else p.2))

/-! ## Invariant predicates for the nested sub-scan

These predicates state the structural invariants maintained by the
line scan: every context-path segment is a regex `(\\w+)` capture, the
tracker's path is empty outside a type definition, and its root segment
is the capture of a type-definition line. -/

/-- Every character of the string is a word character (the string is a
`(\\w+)` capture). -/
def wordOnly (s : String) : Prop := ∀ c ∈ s.data, isWordChar c = true

/-- Invariant of the `ScopeTracker` during the nested sub-scan, relative
to the list `names` of type-definition captures of the input. -/
def trackerInv (names : List String) (st : ScopeTracker) : Prop :=
  (∀ seg ∈ st.contextPath, wordOnly seg) ∧
  (st.isInTypeDefinition = false → st.contextPath = []) ∧
  (st.isInTypeDefinition = true → st.contextPath ≠ [] ∧
    ∃ t, t ∈ names ∧ st.contextPath.head? = some t)

/-- Shape of a record produced by the nested sub-scan: its path consists
of word characters and dots only, and its first dot-segment is a
type-definition capture. -/
def nestedRecOk (names : List String) (r : EnumInfo) : Prop :=
  (∀ c ∈ r.originalTypePath.data, isWordChar c = true ∨ c = '.') ∧
  ∃ t, t ∈ names ∧ (splitS '.' r.originalTypePath).head? = some t

/-! ## Key structure of the value-merge pass

The second pass of `deduplicateEnums` uses Map keys of the form
`name + ":" + sortedValuesKey`; these auxiliaries name the
representative record and the full key contributed by one distinct
sorted-values key. -/

/-- A string containing no colon: the shape under which the composite
Map keys of `deduplicateEnums` parse unambiguously. -/
def colonFree (s : String) : Prop := ∀ c ∈ s.data, c ≠ ':'

instance (s : String) : Decidable (colonFree s) :=
  inferInstanceAs (Decidable (∀ c ∈ s.data, c ≠ ':'))

/-- The representative record that the group of one sorted-values key
contributes in the second pass of `deduplicateEnums`. -/
def mergeRep (enums : List EnumInfo) (k : String) : EnumInfo :=
  match enums.filter (fun e => sortedValuesKey e = k) with
  | [e] => e
  | grp => chooseBestEnumForMerging grp

/-- The full Map key contributed by one sorted-values key. -/
def mergeKey (enums : List EnumInfo) (k : String) : String :=
  (mergeRep enums k).name ++ ":" ++ k

/-! # Theorems

General lemmas about the embedded operations come first, followed by one
theorem per claim (with a witness or counterexample where required). -/

/-! ## Elementary lemmas -/

theorem insertFS_nodup (acc : List (List Char)) (v : List Char) (h : acc.Nodup) :
    (insertFS acc v).Nodup := by
  unfold insertFS
  split
  · exact h
  · rename_i hc
    have hv : v ∉ acc := by
      intro hmem
      exact hc (List.elem_eq_true_of_mem hmem)
    simp [List.nodup_append, h, hv]

theorem foldl_insertFS_nodup (l : List (List Char)) (acc : List (List Char))
    (h : acc.Nodup) : (l.foldl insertFS acc).Nodup := by
  induction l generalizing acc with
  | nil => exact h
  | cons x xs ih => exact ih (insertFS acc x) (insertFS_nodup acc x h)

theorem foldl_quoted_nodup (parts : List (List Char)) (acc : List (List Char))
    (h : acc.Nodup) :
    (parts.foldl
      (fun vals part =>
        match matchQuotedLiteral part with
        | some v => insertFS vals v
        | none => vals) acc).Nodup := by
  induction parts generalizing acc with
  | nil => exact h
  | cons x xs ih =>
    rw [List.foldl_cons]
    refine ih _ ?_
    show (match matchQuotedLiteral x with
      | some v => insertFS acc v
      | none => acc).Nodup
    cases matchQuotedLiteral x with
    | some v => exact insertFS_nodup acc v h
    | none => exact h

theorem extractEnumValuesFuel_nodup (n : Nat) (td : List Char) :
    (extractEnumValuesFuel n td).Nodup := by
  cases n with
  | zero => simp [extractEnumValuesFuel]
  | succ k =>
    rw [extractEnumValuesFuel]
    cases h : findArrayInner td with
    | some inner =>
      show (List.foldl insertFS [] (extractEnumValuesFuel k inner)).Nodup
      exact foldl_insertFS_nodup _ _ List.nodup_nil
    | none =>
      show (if td.contains '|' = true then _ else []).Nodup
      split
      · exact foldl_quoted_nodup _ _ List.nodup_nil
      · exact List.nodup_nil

theorem foldl_insertFS_of_nodup (l : List (List Char)) :
    l.Nodup → ∀ acc, (∀ x ∈ l, x ∉ acc) → l.foldl insertFS acc = acc ++ l := by
  induction l with
  | nil => intro _ acc _; simp
  | cons x xs ih =>
    intro hnd acc hdisj
    rw [List.nodup_cons] at hnd
    have hx : x ∉ acc := hdisj x (by simp)
    have hstep : insertFS acc x = acc ++ [x] := by
      unfold insertFS
      rw [if_neg]
      intro hc
      exact hx (List.mem_of_elem_eq_true hc)
    rw [List.foldl_cons, hstep, ih hnd.2 (acc ++ [x]) ?_, List.append_assoc]
    · rfl
    · intro y hy
      simp only [List.mem_append, List.mem_singleton]
      rintro (hy2 | rfl)
      · exact hdisj y (by simp [hy]) hy2
      · exact hnd.1 hy

theorem findArrayInner_some_length (l r : List Char) (h : findArrayInner l = some r) :
    r.length < l.length := by
  induction l with
  | nil => simp [findArrayInner] at h
  | cons c cs ih =>
    rw [findArrayInner] at h
    cases hmatch : arrayInnerAt (c :: cs) with
    | some r2 =>
      rw [hmatch] at h
      obtain rfl : r2 = r := by simpa using h
      by_cases hpre : "Array<".data.isPrefixOf (c :: cs)
      · simp only [arrayInnerAt, hpre, if_true] at hmatch
        split at hmatch
        · exact absurd hmatch (by simp)
        · split at hmatch
          · exact absurd hmatch (by simp)
          · have hr2 : ((c :: cs).drop 6).takeWhile (fun c => c ≠ '>') = r2 := by
              simpa using hmatch
            have h1 : r2.length ≤ ((c :: cs).drop 6).length := by
              rw [← hr2]
              exact List.IsPrefix.length_le (List.takeWhile_prefix _)
            have h2 : ((c : Char) :: cs).drop 6 = cs.drop 5 := by simp [List.drop]
            rw [h2] at h1
            have h3 : (cs.drop 5).length ≤ cs.length := by
              rw [List.length_drop]; omega
            simp only [List.length_cons]
            omega
      · simp [arrayInnerAt, hpre] at hmatch
    | none =>
      rw [hmatch] at h
      have := ih h
      simp only [List.length_cons]
      omega

theorem extractEnumValuesFuel_nil (m : Nat) : extractEnumValuesFuel m [] = [] := by
  cases m with
  | zero => rfl
  | succ k => simp [extractEnumValuesFuel, findArrayInner, List.contains]

theorem extractEnumValuesFuel_congr (n : Nat) :
    ∀ (m : Nat) (td : List Char), td.length ≤ n → td.length ≤ m →
      extractEnumValuesFuel n td = extractEnumValuesFuel m td := by
  induction n using Nat.strong_induction_on with
  | _ n ih =>
    intro m td hn hm
    cases n with
    | zero =>
      have : td = [] := List.length_eq_zero.mp (Nat.le_zero.mp hn)
      subst this
      rw [extractEnumValuesFuel_nil, extractEnumValuesFuel_nil]
    | succ k =>
      cases m with
      | zero =>
        have : td = [] := List.length_eq_zero.mp (Nat.le_zero.mp hm)
        subst this
        rw [extractEnumValuesFuel_nil, extractEnumValuesFuel_nil]
      | succ j =>
        rw [extractEnumValuesFuel, extractEnumValuesFuel]
        cases h : findArrayInner td with
        | some inner =>
          have hlt := findArrayInner_some_length td inner h
          have hik : extractEnumValuesFuel k inner = extractEnumValuesFuel j inner :=
            ih k (by omega) j inner (by omega) (by omega)
          show List.foldl insertFS [] (extractEnumValuesFuel k inner) =
            List.foldl insertFS [] (extractEnumValuesFuel j inner)
          rw [hik]
        | none => rfl

theorem takeWhile_ne_gt (s : List Char) (h : '>' ∉ s) :
    (s ++ ['>']).takeWhile (fun c => c ≠ '>') = s := by
  induction s with
  | nil => simp [List.takeWhile]
  | cons c cs ih =>
    have hc : c ≠ '>' := fun hc => h (by simp [hc])
    have ih2 := ih (fun hm => h (by simp [hm]))
    have hstep : List.takeWhile (fun c => decide (c ≠ '>')) ((c :: cs) ++ ['>']) =
        c :: List.takeWhile (fun c => decide (c ≠ '>')) (cs ++ ['>']) := by
      rw [List.cons_append, List.takeWhile_cons, if_pos (by simpa using hc)]
    rw [hstep, ih2]

theorem arrayInnerAt_wrap (s : List Char) (h1 : s ≠ []) (h2 : '>' ∉ s) :
    arrayInnerAt ("Array<".data ++ (s ++ ['>'])) = some s := by
  have hpre : "Array<".data.isPrefixOf ("Array<".data ++ (s ++ ['>'])) = true :=
    List.isPrefixOf_iff_prefix.mpr (List.prefix_append _ _)
  have hdrop : ("Array<".data ++ (s ++ ['>'])).drop 6 = s ++ ['>'] :=
    List.drop_left "Array<".data (s ++ ['>'])
  have hdrop2 : (s ++ ['>']).drop s.length = ['>'] := List.drop_left s ['>']
  simp only [arrayInnerAt, hpre, if_true, hdrop, takeWhile_ne_gt s h2, hdrop2]
  simp [h1]

theorem findArrayInner_wrap (s : List Char) (h1 : s ≠ []) (h2 : '>' ∉ s) :
    findArrayInner ("Array<".data ++ (s ++ ['>'])) = some s := by
  have hcons : "Array<".data ++ (s ++ ['>']) = 'A' :: ("rray<".data ++ (s ++ ['>'])) := rfl
  rw [hcons, findArrayInner]
  have h3 : arrayInnerAt ('A' :: ("rray<".data ++ (s ++ ['>']))) = some s :=
    arrayInnerAt_wrap s h1 h2
  rw [h3]

/-! ## Claim C6 — nested array-of wrappers -/

/-- C6 (counterexample): for `Array<Array<'a' | 'b'>>` the extraction
does not return the full value set of the innermost union.  The bounded
capture group `[^>]+` of `/Array<([^>]+)>/` stops at the first `>`, so
the recursive call receives `Array<'a' | 'b'` (no closing `>`): the
wrapper no longer matches there, the expression is split on `|`, the
part `Array<'a'` is not a quoted literal, and only `b` survives. -/
theorem c6_nested_array_counterexample :
    extractEnumValues "Array<Array<'a' | 'b'>>" = ["b"] ∧
    extractEnumValues "'a' | 'b'" = ["a", "b"] ∧
    (["b"] : List String) ≠ ["a", "b"] := by
  refine ⟨by decide, by decide, by decide⟩

/-- C6 (amended): a single `Array<...>` wrapper is unwrapped: for every
non-empty inner expression that contains no `>`, extraction on
`Array<` + inner + `>` returns exactly the extraction of the inner
expression (the recursive result is poured into a fresh set, which
leaves the already duplicate-free list unchanged).  Nested wrappers such
as `Array<Array<...>>` violate the `>`-freeness and are not fully
unwrapped (see the counterexample). -/
theorem c6_single_array_wrapper (s : String) (h1 : s ≠ "")
    (h2 : s.data.contains '>' = false) :
    extractEnumValues ("Array<" ++ s ++ ">") = extractEnumValues s := by
  have hd : ("Array<" ++ s ++ ">").data = "Array<".data ++ (s.data ++ ['>']) := by
    rw [String.data_append, String.data_append, List.append_assoc]
  have hne : s.data ≠ [] := by
    intro h
    exact h1 (String.ext (by rw [h]))
  have hmem : '>' ∉ s.data := by
    intro hm
    have h3 : s.data.elem '>' = true := List.elem_eq_true_of_mem hm
    have h4 : s.data.elem '>' = false := h2
    rw [h3] at h4
    exact absurd h4 (by decide)
  unfold extractEnumValues extractEnumValuesL
  rw [hd]
  have hlen : ("Array<".data ++ (s.data ++ ['>'])).length = (s.data.length + 6) + 1 := by
    simp [List.length_append]
  rw [hlen, extractEnumValuesFuel, findArrayInner_wrap s.data hne hmem]
  show (List.foldl insertFS [] (extractEnumValuesFuel (s.data.length + 6) s.data)).map String.mk =
    (extractEnumValuesFuel s.data.length s.data).map String.mk
  rw [extractEnumValuesFuel_congr (s.data.length + 6) s.data.length s.data (by omega)
    (Nat.le_refl _)]
  rw [foldl_insertFS_of_nodup _ (extractEnumValuesFuel_nodup _ _) [] (by intro x _; simp)]
  rw [List.nil_append]

/-- C6 witness: the amended theorem applied to the inner union
`'a' | 'b'`. -/
theorem c6_single_array_wrapper_witness :
    ("'a' | 'b'" : String) ≠ "" ∧ ("'a' | 'b'" : String).data.contains '>' = false ∧
    extractEnumValues ("Array<" ++ "'a' | 'b'" ++ ">") = extractEnumValues "'a' | 'b'" :=
  ⟨by decide, by decide, c6_single_array_wrapper "'a' | 'b'" (by decide) (by decide)⟩

/-! ## Claim C1 — order of filtering and deduplication -/

/-- C1 (counterexample): on a text whose two records both get the
first-pass name `statusValues`, with exclude pattern `query`, the
pipeline as implemented (filters before deduplication) emits both
context-renamed declarations, while the spec's order (deduplicate, then
filter the final names) drops the `query`-qualified survivor — the
outputs differ. -/
theorem c1_filter_order_counterexample :
    handlerCore
        "export type Query = \x7b\n  status: 'a' | 'b';\n\x7d;\nexport type Request = \x7b\n  status: 'c' | 'd';\n\x7d;"
        none (some ["query"]) "" ≠
      specFilterAfterDedupPipeline
        "export type Query = \x7b\n  status: 'a' | 'b';\n\x7d;\nexport type Request = \x7b\n  status: 'c' | 'd';\n\x7d;"
        none (some ["query"]) "" := by
  decide

/-- C1 (amended): the include/exclude name-pattern filters are applied
to the record set after extraction and first-pass naming and *before*
deduplication: the emitted output is obtained by filtering the parsed
records by name and handing the filtered set to `generateEnumArrays`
(which deduplicates and then emits).  When no filters are configured the
implemented pipeline and the spec-ordered pipeline coincide. -/
theorem c1_filters_before_dedup (typesContent : String)
    (inc exc : Option (List String)) (pre : String) :
    handlerCore typesContent inc exc pre =
      generateEnumArrays
        (applyExcludePatterns exc (applyIncludePatterns inc (parseEnumsFromTypeFile typesContent)))
        pre ∧
    handlerCore typesContent none none pre =
      specFilterAfterDedupPipeline typesContent none none pre :=
  ⟨rfl, rfl⟩

/-! ## Claim C4 — the `OrderStatus` scenario -/

/-- C4 (counterexample): on the input text of the scenario (which lacks
the `export` keyword required by every scan of the extractor) the full
pipeline emits no declaration at all — the output is exactly the header
line and does not contain the identifier `orderStatuses`. -/
theorem c4_order_status_counterexample :
    handlerCore "type OrderStatus = 'PENDING' | 'COMPLETED';" none none "" =
      "// This file is auto-generated by openapi-enum-arrays" ∧
    strIncludes (handlerCore "type OrderStatus = 'PENDING' | 'COMPLETED';" none none "")
      "orderStatuses" = false := by
  refine ⟨by decide, by decide⟩

/-- C4 (amended): the scenario holds of the generation stage (as in the
repository's own test): for the record named `OrderStatus` with values
`PENDING`/`COMPLETED`, `generateEnumArrays` emits the identifier
`orderStatuses` (suffix substitution `Status→Statuses`) with the values
sorted as `['COMPLETED', 'PENDING']`.  The full pipeline on the
scenario's text reaches no such record: without `export` the line is not
scanned, and even with it the first-pass name would be
`orderstatusValues`, not `OrderStatus`. -/
theorem c4_order_status_generator :
    generateEnumArrays
        [{ name := "OrderStatus", values := ["PENDING", "COMPLETED"],
           originalTypePath := "export type OrderStatus" }] "" =
      "// This file is auto-generated by openapi-enum-arrays\n\nexport const orderStatuses = ['COMPLETED', 'PENDING'] as const" := by
  decide

/-! ## Claim C5 — tier-3 naming from the trailing dot-segment -/

/-- C5 (counterexample): for the path `A.` (which contains a dot, and on
which tiers 1 and 2 both fail) the trailing dot-segment is empty; the
code does not produce `"" + "Values"` but falls through to the
value-derived fallback name, here `xyValues`. -/
theorem c5_trailing_segment_counterexample :
    extractDomainFromOpenApiPath "A." = none ∧
    ("A." : String).data.contains '.' = true ∧
    (splitS '.' "A.").getLast? = some "" ∧
    generateName ["x", "y"] "A." = "xyValues" ∧
    ("xyValues" : String) ≠ "" ++ "Values" := by
  refine ⟨by decide, by decide, by decide, by decide, by decide⟩

/-- C5 (amended): when tiers 1 and 2 do not apply
(`extractDomainFromOpenApiPath` returns nothing), the path contains a
dot, and the trailing dot-segment is non-empty, the first-pass name is
that trailing segment with `Values` appended. -/
theorem c5_trailing_segment_name (values : List String) (p seg : String)
    (hdom : extractDomainFromOpenApiPath p = none)
    (hdot : p.data.contains '.' = true)
    (hlast : (splitS '.' p).getLast? = some seg)
    (hne : seg ≠ "") :
    generateName values p = seg ++ "Values" := by
  have hp : p ≠ "" := by
    intro h
    subst h
    simp [List.contains] at hdot
  unfold generateName
  rw [hdom]
  unfold extractPropertyName
  rw [if_neg hp, if_pos hdot]
  unfold jsPop
  rw [hlast]
  simp [hne]

/-- C5 witness: the amended theorem applied to the path `A.b`. -/
theorem c5_trailing_segment_name_witness :
    extractDomainFromOpenApiPath "A.b" = none ∧
    ("A.b" : String).data.contains '.' = true ∧
    (splitS '.' "A.b").getLast? = some "b" ∧
    generateName ["x"] "A.b" = "b" ++ "Values" :=
  ⟨by decide, by decide, by decide,
    c5_trailing_segment_name ["x"] "A.b" "b" (by decide) (by decide) (by decide) (by decide)⟩

/-! ## Claim C7 — suffix substitution in `toArrayName` -/

theorem replaceFirstL_unique_suffix (pat rep : List Char) :
    ∀ (s : List Char), pat ≠ [] → pat <:+ s →
      (∀ i, i < s.length - pat.length → ¬ pat <+: s.drop i) →
      replaceFirstL pat rep s = s.take (s.length - pat.length) ++ rep := by
  intro s
  induction s with
  | nil =>
    intro hpat hsuf _
    exact absurd (List.suffix_nil.mp hsuf) hpat
  | cons c cs ih =>
    intro hpat hsuf huniq
    by_cases hp : pat.isPrefixOf (c :: cs)
    · have hpre : pat <+: c :: cs := List.isPrefixOf_iff_prefix.mp hp
      have hlen : (c :: cs).length = pat.length := by
        by_contra hne2
        have hle : pat.length ≤ (c :: cs).length := hpre.length_le
        have hlt : 0 < (c :: cs).length - pat.length := by omega
        exact huniq 0 hlt (by simpa using hpre)
      have heq : pat = c :: cs := List.IsPrefix.eq_of_length hpre (by omega)
      subst heq
      rw [replaceFirstL, if_pos hp]
      simp [List.drop_length]
    · have hp2 : ¬ pat <+: (c :: cs) := fun h => hp (List.isPrefixOf_iff_prefix.mpr h)
      have hsuf2 : pat <:+ cs := by
        rcases List.suffix_cons_iff.mp hsuf with h | h
        · subst h
          exact absurd List.prefix_rfl hp2
        · exact h
      have hplen : pat.length ≤ cs.length := hsuf2.length_le
      have huniq2 : ∀ i, i < cs.length - pat.length → ¬ pat <+: cs.drop i := by
        intro i hi hpre
        refine huniq (i + 1) ?_ (by simpa using hpre)
        simp only [List.length_cons]
        omega
      rw [replaceFirstL, if_neg hp, ih hpat hsuf2 huniq2]
      have harith : (c :: cs).length - pat.length = (cs.length - pat.length) + 1 := by
        simp only [List.length_cons]
        omega
      rw [harith, List.take_succ_cons, List.cons_append]

theorem not_both_suffixes (c u w : List Char) (hw : w <:+ c)
    (h : (u.length ≤ w.length → ¬ u <:+ w) ∧ (w.length ≤ u.length → ¬ w <:+ u)) :
    u.isSuffixOf c = false := by
  by_contra hb
  have hu : u <:+ c := List.isSuffixOf_iff_suffix.mp (by simpa using hb)
  rcases Nat.le_total u.length w.length with hle | hle
  · exact h.1 hle (List.suffix_of_suffix_length_le hu hw hle)
  · exact h.2 hle (List.suffix_of_suffix_length_le hw hu hle)

/-- C7 (amended): `toArrayName` lower-cases the first letter and then
substitutes the *first* occurrence of the matched trailing suffix (JS
`String.prototype.replace` with a string pattern replaces the first
occurrence, not the trailing one).  Consequently the claim's description
is accurate exactly when the suffix word occurs only once — as the
trailing occurrence — in the name: then the trailing occurrence is
substituted per the table, and a name ending in none of the six suffixes
gets `Values` appended. -/
theorem c7_first_occurrence_substitution :
    (∀ (t w w2 : String), (w, w2) ∈ suffixTable →
      endsWithS (lowerFirst t) w = true →
      (∀ i, i < (lowerFirst t).data.length - w.data.length →
        ¬ w.data <+: (lowerFirst t).data.drop i) →
      toArrayName t =
        String.mk ((lowerFirst t).data.take ((lowerFirst t).data.length - w.data.length) ++
          w2.data)) ∧
    (∀ t : String, (∀ pr ∈ suffixTable, endsWithS (lowerFirst t) pr.1 = false) →
      toArrayName t = lowerFirst t ++ "Values") := by
  constructor
  · intro t w w2 hmem hend huniq
    have hsufw : w.data <:+ (lowerFirst t).data := List.isSuffixOf_iff_suffix.mp hend
    simp only [suffixTable, List.mem_cons, List.not_mem_nil, or_false, Prod.mk.injEq] at hmem
    rcases hmem with ⟨rfl, rfl⟩ | ⟨rfl, rfl⟩ | ⟨rfl, rfl⟩ | ⟨rfl, rfl⟩ | ⟨rfl, rfl⟩ | ⟨rfl, rfl⟩ <;>
      simp only [toArrayName, endsWithS, replaceFirstS] at * <;>
      [skip;
       rw [not_both_suffixes _ "Status".data _ hsufw (by decide)];
       rw [not_both_suffixes _ "Status".data _ hsufw (by decide),
         not_both_suffixes _ "Type".data _ hsufw (by decide)];
       rw [not_both_suffixes _ "Status".data _ hsufw (by decide),
         not_both_suffixes _ "Type".data _ hsufw (by decide),
         not_both_suffixes _ "Model".data _ hsufw (by decide)];
       rw [not_both_suffixes _ "Status".data _ hsufw (by decide),
         not_both_suffixes _ "Type".data _ hsufw (by decide),
         not_both_suffixes _ "Model".data _ hsufw (by decide),
         not_both_suffixes _ "Role".data _ hsufw (by decide)];
       rw [not_both_suffixes _ "Status".data _ hsufw (by decide),
         not_both_suffixes _ "Type".data _ hsufw (by decide),
         not_both_suffixes _ "Model".data _ hsufw (by decide),
         not_both_suffixes _ "Role".data _ hsufw (by decide),
         not_both_suffixes _ "Source".data _ hsufw (by decide)]] <;>
      rw [hend] <;>
      simp only [if_true, Bool.false_eq_true, if_false] <;>
      exact congrArg String.mk (replaceFirstL_unique_suffix _ _ _ (by decide) hsufw huniq)
  · intro t h
    have h1 := h ("Status", "Statuses") (by simp [suffixTable])
    have h2 := h ("Type", "Types") (by simp [suffixTable])
    have h3 := h ("Model", "Models") (by simp [suffixTable])
    have h4 := h ("Role", "Roles") (by simp [suffixTable])
    have h5 := h ("Source", "Sources") (by simp [suffixTable])
    have h6 := h ("Mode", "Modes") (by simp [suffixTable])
    simp only [toArrayName]
    rw [h1, h2, h3, h4, h5, h6]
    simp

/-- C7 (counterexample): for the name `MyStatusStatus` the emitted
identifier substitutes the *first* `Status`, not the trailing one: the
result is `myStatusesStatus`, while the claim predicts
`myStatusStatuses`. -/
theorem c7_first_occurrence_counterexample :
    toArrayName "MyStatusStatus" = "myStatusesStatus" ∧
    ("myStatusesStatus" : String) ≠ "myStatusStatuses" := by
  refine ⟨by decide, by decide⟩

/-- C7 witness: the amended theorem applied to `OrderStatus`, where the
suffix occurs once; the substitution yields `orderStatuses`. -/
theorem c7_first_occurrence_substitution_witness :
    (("Status", "Statuses") ∈ suffixTable) ∧
    endsWithS (lowerFirst "OrderStatus") "Status" = true ∧
    toArrayName "OrderStatus" = "orderStatuses" :=
  ⟨by decide, by decide,
    (c7_first_occurrence_substitution.1 "OrderStatus" "Status" "Statuses" (by decide) (by decide)
      (by decide)).trans (by decide)⟩

/-! ## Claim C9 — emission mutates the survivors' values -/

theorem insertSortedStr_perm (x : String) (l : List String) :
    (insertSortedStr x l).Perm (x :: l) := by
  induction l with
  | nil => rfl
  | cons b bs ih =>
    unfold insertSortedStr
    split
    · exact ((ih.cons b).trans (List.Perm.swap x b bs)).symm.symm
    · exact List.Perm.refl _

theorem jsSortStrings_perm_aux (l acc : List String) :
    (l.foldl (fun acc x => insertSortedStr x acc) acc).Perm (acc ++ l) := by
  induction l generalizing acc with
  | nil => simp
  | cons a as ih =>
    rw [List.foldl_cons]
    refine (ih (insertSortedStr a acc)).trans ?_
    refine (List.Perm.append_right as ((insertSortedStr_perm a acc))).trans ?_
    exact List.perm_middle.symm

theorem jsSortStrings_perm (l : List String) : (jsSortStrings l).Perm l := by
  simpa using jsSortStrings_perm_aux l []

theorem jsStrLeL_cons (x y : Char) (xs ys : List Char) :
    jsStrLeL (x :: xs) (y :: ys) =
      if x.toNat < y.toNat then true
      else if y.toNat < x.toNat then false
      else jsStrLeL xs ys := by
  show (if jsCharLt x y then true else if jsCharLt y x then false else jsStrLeL xs ys) = _
  unfold jsCharLt
  by_cases h1 : x.toNat < y.toNat
  · simp [h1]
  · by_cases h2 : y.toNat < x.toNat <;> simp [h1, h2]

theorem jsStrLeL_total (a : List Char) :
    ∀ b, jsStrLeL a b = true ∨ jsStrLeL b a = true := by
  induction a with
  | nil => intro b; left; rfl
  | cons x xs ih =>
    intro b
    cases b with
    | nil => right; rfl
    | cons y ys =>
      rw [jsStrLeL_cons, jsStrLeL_cons]
      rcases Nat.lt_trichotomy x.toNat y.toNat with h | h | h
      · left
        simp [h]
      · have h1 : ¬ x.toNat < y.toNat := by omega
        have h2 : ¬ y.toNat < x.toNat := by omega
        simp only [h1, h2, if_false]
        exact ih ys
      · right
        simp [h]
  
theorem jsStrLeL_trans (a : List Char) :
    ∀ b c, jsStrLeL a b = true → jsStrLeL b c = true → jsStrLeL a c = true := by
  induction a with
  | nil => intro b c _ _; rfl
  | cons x xs ih =>
    intro b c hab hbc
    cases b with
    | nil => exact absurd hab (by simp [jsStrLeL])
    | cons y ys =>
      cases c with
      | nil => exact absurd hbc (by simp [jsStrLeL])
      | cons z zs =>
        rw [jsStrLeL_cons] at hab hbc
        rw [jsStrLeL_cons]
        split_ifs at hab hbc ⊢ <;>
          first
          | rfl
          | exact ih ys zs hab hbc
          | omega

theorem jsStrLe_total (a b : String) : jsStrLe a b = true ∨ jsStrLe b a = true :=
  jsStrLeL_total a.data b.data

theorem jsStrLe_trans (a b c : String) (h1 : jsStrLe a b = true) (h2 : jsStrLe b c = true) :
    jsStrLe a c = true :=
  jsStrLeL_trans a.data b.data c.data h1 h2

theorem insertSortedStr_pairwise (x : String) (l : List String)
    (h : l.Pairwise (fun a b => jsStrLe a b = true)) :
    (insertSortedStr x l).Pairwise (fun a b => jsStrLe a b = true) := by
  induction l with
  | nil => simp [insertSortedStr]
  | cons b bs ih =>
    rw [List.pairwise_cons] at h
    unfold insertSortedStr
    split
    · rename_i hbx
      rw [List.pairwise_cons]
      constructor
      · intro y hy
        rcases List.mem_cons.mp ((insertSortedStr_perm x bs).mem_iff.mp hy) with rfl | hy2
        · exact hbx
        · exact h.1 y hy2
      · exact ih h.2
    · rename_i hbx
      have hxb : jsStrLe x b = true := by
        rcases jsStrLe_total b x with hh | hh
        · exact absurd hh hbx
        · exact hh
      rw [List.pairwise_cons]
      constructor
      · intro y hy
        rcases List.mem_cons.mp hy with rfl | hy2
        · exact hxb
        · exact jsStrLe_trans x b y hxb (h.1 y hy2)
      · rw [List.pairwise_cons]
        exact h

theorem jsSortStrings_pairwise (l : List String) :
    (jsSortStrings l).Pairwise (fun a b => jsStrLe a b = true) := by
  unfold jsSortStrings
  suffices h : ∀ acc, acc.Pairwise (fun a b => jsStrLe a b = true) →
      (l.foldl (fun acc x => insertSortedStr x acc) acc).Pairwise
        (fun a b => jsStrLe a b = true) by
    exact h [] List.Pairwise.nil
  induction l with
  | nil => intro acc hacc; exact hacc
  | cons a as ih =>
    intro acc hacc
    rw [List.foldl_cons]
    exact ih _ (insertSortedStr_pairwise a acc hacc)

/-- C9 (amended): `generateEnumArrays` does mutate: each input record
keeps its name and path, but its `values` array is sorted in place when
the record is selected as a deduplication survivor — afterwards its
values are either the original sequence (non-survivors) or the sorted
permutation of it.  They are not immutable across emission. -/
theorem c9_emission_sorts_in_place (enums : List EnumInfo) (pre : String) :
    List.Forall₂
      (fun a b => b.name = a.name ∧ b.originalTypePath = a.originalTypePath ∧
        b.values.Perm a.values ∧
        (b.values = a.values ∨
          (b.values = jsSortStrings a.values ∧
            b.values.Pairwise (fun x y => jsStrLe x y = true))))
      enums ((generateEnumArraysEff enums pre).2) := by
  show List.Forall₂ _ enums (enums.enum.map _)
  conv_lhs => rw [← List.enum_map_snd enums]
  rw [List.forall₂_map_right_iff, List.forall₂_map_left_iff]
  have : ∀ p : Nat × EnumInfo, p ∈ enums.enum →
      (fun a b => b.name = a.name ∧ b.originalTypePath = a.originalTypePath ∧
        b.values.Perm a.values ∧
        (b.values = a.values ∨
          (b.values = jsSortStrings a.values ∧
            b.values.Pairwise (fun x y => jsStrLe x y = true))))
        p.2
        (if (survivorIndices enums).contains p.1
         then { p.2 with values := jsSortStrings p.2.values } else p.2) := by
    intro p _
    split
    · exact ⟨rfl, rfl, jsSortStrings_perm _, Or.inr ⟨rfl, jsSortStrings_pairwise _⟩⟩
    · exact ⟨rfl, rfl, List.Perm.refl _, Or.inl rfl⟩
  exact List.forall₂_same.mpr this

/-- C9 (counterexample): a single record with unsorted values `[b, a]`
survives deduplication, and after `generateEnumArrays` runs, its values
have been sorted in place — the input record list is changed. -/
theorem c9_values_mutated_counterexample :
    (generateEnumArraysEff
        [{ name := "x", values := ["b", "a"], originalTypePath := "p" }] "").2 =
      [{ name := "x", values := ["a", "b"], originalTypePath := "p" }] ∧
    [({ name := "x", values := ["a", "b"], originalTypePath := "p" } : EnumInfo)] ≠
      [{ name := "x", values := ["b", "a"], originalTypePath := "p" }] := by
  refine ⟨by decide, by decide⟩

/-! ## Claims C8 and C10 — structure of the scanned paths -/

theorem matchTypeDefHead_wordOnly (cs : List Char) (w : String) (rest : List Char)
    (h : matchTypeDefHead cs = some (w, rest)) : wordOnly w := by
  simp only [matchTypeDefHead] at h
  split at h
  · split at h
    · exact absurd h (by simp)
    · split at h
      · exact absurd h (by simp)
      · split at h
        · rename_i heq
          rw [Option.some.injEq, Prod.mk.injEq] at h
          intro c hc
          rw [← h.1] at hc
          exact List.mem_takeWhile_imp hc
        · exact absurd h (by simp)
  · exact absurd h (by simp)

theorem scanWordRuns_wordOnly (f : List Char → Bool) :
    ∀ (cs : List Char) (s : String), scanWordRuns f cs = some s → wordOnly s := by
  intro cs
  induction cs with
  | nil => intro s h; simp [scanWordRuns] at h
  | cons c cs ih =>
    intro s h
    rw [scanWordRuns] at h
    split at h
    · rename_i hw
      split at h
      · rw [Option.some.injEq] at h
        intro x hx
        rw [← h] at hx
        rcases List.mem_cons.mp hx with rfl | hx2
        · exact hw
        · exact List.mem_takeWhile_imp hx2
      · exact ih s h
    · exact ih s h

theorem scanWordRunsP_wordOnly (f : List Char → Option (List Char)) :
    ∀ (cs : List Char) (s : String) (payload : List Char),
      scanWordRunsP f cs = some (s, payload) → wordOnly s := by
  intro cs
  induction cs with
  | nil => intro s payload h; simp [scanWordRunsP] at h
  | cons c cs ih =>
    intro s payload h
    rw [scanWordRunsP] at h
    split at h
    · rename_i hw
      split at h
      · rw [Option.some.injEq, Prod.mk.injEq] at h
        intro x hx
        rw [← h.1] at hx
        rcases List.mem_cons.mp hx with rfl | hx2
        · exact hw
        · exact List.mem_takeWhile_imp hx2
      · exact ih s payload h
    · exact ih s payload h

theorem extractTypeDefinitionName_wordOnly (line : String) (t : String)
    (h : extractTypeDefinitionName line = some t) : wordOnly t := by
  unfold extractTypeDefinitionName at h
  cases hm : matchTypeDefHead line.data with
  | some p =>
    rw [hm] at h
    rw [Option.map_some'] at h
    rw [Option.some.injEq] at h
    subst h
    exact matchTypeDefHead_wordOnly _ _ _ (by rw [hm])
  | none => rw [hm] at h; exact absurd h (by simp)

theorem extractNestedObjectProperty_wordOnly (line : String) (s : String)
    (h : extractNestedObjectProperty line = some s) : wordOnly s :=
  scanWordRuns_wordOnly _ _ _ h

theorem extractUnionTypeProperty_wordOnly (line : String) (s td : String)
    (h : extractUnionTypeProperty line = some (s, td)) : wordOnly s := by
  unfold extractUnionTypeProperty at h
  cases hm : scanWordRunsP afterRunUnionCapture line.data with
  | some p =>
    rw [hm] at h
    rw [Option.map_some'] at h
    rw [Option.some.injEq, Prod.mk.injEq] at h
    have := scanWordRunsP_wordOnly afterRunUnionCapture line.data p.1 p.2 (by rw [hm])
    rw [← h.1]
    exact this
  | none => rw [hm] at h; exact absurd h (by simp)

theorem popSegments_nil : ∀ n, popSegments [] n = [] := by
  intro n
  induction n with
  | zero => rfl
  | succ k ih => simp [popSegments, ih]

theorem popSegments_subset : ∀ (n : Nat) (l : List String), ∀ x ∈ popSegments l n, x ∈ l := by
  intro n
  induction n with
  | zero => intro l x hx; exact hx
  | succ k ih =>
    intro l x hx
    rw [popSegments] at hx
    split at hx
    · exact List.dropLast_subset _ (ih _ x hx)
    · exact ih _ x hx

theorem dropLast_head?_of_one_lt (l : List String) (h : 1 < l.length) :
    l.dropLast.head? = l.head? ∧ l.dropLast ≠ [] := by
  cases l with
  | nil => simp at h
  | cons a l2 =>
    cases l2 with
    | nil => simp at h
    | cons b l3 => simp [List.dropLast]

theorem popSegments_head : ∀ (n : Nat) (l : List String), l ≠ [] →
    popSegments l n ≠ [] ∧ (popSegments l n).head? = l.head? := by
  intro n
  induction n with
  | zero => intro l h; exact ⟨h, rfl⟩
  | succ k ih =>
    intro l h
    rw [popSegments]
    split
    · rename_i hlen
      have hd := dropLast_head?_of_one_lt l hlen
      have := ih l.dropLast hd.2
      exact ⟨this.1, this.2.trans hd.1⟩
    · exact ih l h

theorem exitScope_trackerInv (names : List String) (st : ScopeTracker) (n : Nat)
    (h : trackerInv names st) : trackerInv names (st.exitScope n) := by
  simp only [ScopeTracker.exitScope]
  split
  · exact ⟨by simp, fun _ => rfl, fun hc => by simp at hc⟩
  · refine ⟨?_, ?_, ?_⟩
    · intro seg hseg
      exact h.1 seg (popSegments_subset n st.contextPath seg hseg)
    · intro hf
      simp only at hf
      rw [h.2.1 hf, popSegments_nil]
    · intro ht
      simp only at ht
      obtain ⟨hne, t, htmem, hthead⟩ := h.2.2 ht
      have hp := popSegments_head n st.contextPath hne
      exact ⟨hp.1, t, htmem, hp.2.trans hthead⟩

theorem joinSepS_dot_chars : ∀ (segs : List String),
    (∀ s ∈ segs, wordOnly s) →
    ∀ c ∈ (joinSepS "." segs).data, isWordChar c = true ∨ c = '.' := by
  intro segs
  induction segs with
  | nil => intro _ c hc; simp [joinSepS] at hc
  | cons s rest ih =>
    intro h c hc
    cases rest with
    | nil =>
      exact Or.inl (h s (by simp) c hc)
    | cons m rest2 =>
      have hd : (joinSepS "." (s :: m :: rest2)).data =
          s.data ++ ('.' :: (joinSepS "." (m :: rest2)).data) := by
        show (s ++ "." ++ joinSepS "." (m :: rest2)).data = _
        rw [String.data_append, String.data_append, List.append_assoc]
        rfl
      rw [hd] at hc
      rcases List.mem_append.mp hc with hc1 | hc2
      · exact Or.inl (h s (by simp) c hc1)
      · rcases List.mem_cons.mp hc2 with rfl | hc3
        · exact Or.inr rfl
        · exact ih (fun x hx => h x (by simp [hx])) c hc3

theorem splitOnCharL_ne_nil (sep : Char) : ∀ (l : List Char), splitOnCharL sep l ≠ [] := by
  intro l
  cases l with
  | nil => simp [splitOnCharL]
  | cons c cs =>
    rw [splitOnCharL]
    cases h : splitOnCharL sep cs with
    | nil => simp
    | cons h2 t2 =>
      by_cases hc : c = sep <;> simp [hc]

theorem splitOnCharL_append_head (sep : Char) :
    ∀ (t rest : List Char), sep ∉ t →
      (splitOnCharL sep (t ++ sep :: rest)).head? = some t := by
  intro t
  induction t with
  | nil =>
    intro rest _
    rw [List.nil_append, splitOnCharL]
    cases h : splitOnCharL sep rest with
    | nil => exact absurd h (splitOnCharL_ne_nil sep rest)
    | cons h2 t2 => simp
  | cons c t' ih =>
    intro rest hmem
    have hc : c ≠ sep := fun hh => hmem (by simp [hh])
    rw [List.cons_append, splitOnCharL]
    cases h : splitOnCharL sep (t' ++ sep :: rest) with
    | nil => exact absurd h (splitOnCharL_ne_nil sep _)
    | cons h2 t2 =>
      have hhead := ih rest (fun hh => hmem (by simp [hh]))
      rw [h] at hhead
      have : h2 = t' := by simpa using hhead
      subst this
      simp [hc]

theorem splitS_joinSepS_head (t : String) (more : List String) (hm : more ≠ [])
    (h : '.' ∉ t.data) :
    (splitS '.' (joinSepS "." (t :: more))).head? = some t := by
  cases more with
  | nil => exact absurd rfl hm
  | cons m rest =>
    have hd : (joinSepS "." (t :: m :: rest)).data =
        t.data ++ '.' :: (joinSepS "." (m :: rest)).data := by
      show (t ++ "." ++ joinSepS "." (m :: rest)).data = _
      rw [String.data_append, String.data_append, List.append_assoc]
      rfl
    unfold splitS
    rw [hd]
    have := splitOnCharL_append_head '.' t.data ((joinSepS "." (m :: rest)).data) h
    cases hsplit : splitOnCharL '.' (t.data ++ '.' :: (joinSepS "." (m :: rest)).data) with
    | nil => exact absurd hsplit (splitOnCharL_ne_nil _ _)
    | cons h2 t2 =>
      rw [hsplit] at this
      have h2eq : h2 = t.data := by simpa using this
      subst h2eq
      simp

theorem enterNestedObject_trackerInv (names : List String) (st : ScopeTracker)
    (prop : String) (k : Nat) (h : trackerInv names st)
    (ht : st.isInTypeDefinition = true) (hw : wordOnly prop) :
    trackerInv names (st.enterNestedObject prop k) := by
  obtain ⟨hne, t, htm, hth⟩ := h.2.2 ht
  refine ⟨?_, ?_, ?_⟩
  · intro seg hseg
    rcases List.mem_append.mp hseg with hs | hs
    · exact h.1 seg hs
    · rw [List.mem_singleton.mp hs]
      exact hw
  · intro hf
    rw [ScopeTracker.enterNestedObject] at hf
    simp only at hf
    rw [ht] at hf
    exact absurd hf (by simp)
  · intro _
    refine ⟨?_, t, htm, ?_⟩
    · show st.contextPath ++ [prop] ≠ []
      simp
    show (st.contextPath ++ [prop]).head? = some t
    cases hc : st.contextPath with
    | nil => exact absurd hc hne
    | cons a l2 =>
      rw [hc] at hth
      simpa using hth

theorem adjustNestingLevel_trackerInv (names : List String) (st : ScopeTracker) (k : Nat)
    (h : trackerInv names st) : trackerInv names (st.adjustNestingLevel k) := h

theorem closingOpening_trackerInv (names : List String) (st : ScopeTracker)
    (clo op : Nat) (h : trackerInv names st) :
    trackerInv names
      ((if 0 < clo then st.exitScope clo else st).adjustNestingLevel op) := by
  apply adjustNestingLevel_trackerInv
  split
  · exact exitScope_trackerInv names st clo h
  · exact h

theorem recordPath_ok (names : List String) (st : ScopeTracker) (prop : String)
    (h : trackerInv names st) (ht : st.isInTypeDefinition = true) (hw : wordOnly prop) :
    (∀ c ∈ (joinSepS "." (st.contextPath ++ [prop])).data, isWordChar c = true ∨ c = '.') ∧
    ∃ t, t ∈ names ∧
      (splitS '.' (joinSepS "." (st.contextPath ++ [prop]))).head? = some t := by
  obtain ⟨hne, t, htm, hth⟩ := h.2.2 ht
  constructor
  · apply joinSepS_dot_chars
    intro s hs
    rcases List.mem_append.mp hs with hs1 | hs1
    · exact h.1 s hs1
    · rw [List.mem_singleton.mp hs1]
      exact hw
  · refine ⟨t, htm, ?_⟩
    cases hc : st.contextPath with
    | nil => exact absurd hc hne
    | cons a l2 =>
      rw [hc] at hth
      have hat : a = t := by simpa using hth
      subst hat
      have hwa : wordOnly a := h.1 a (by rw [hc]; simp)
      have hdot : '.' ∉ a.data := by
        intro hd
        have := hwa '.' hd
        simp [isWordChar, isAsciiUpper, isAsciiLower, isAsciiDigit] at this
      exact splitS_joinSepS_head a (l2 ++ [prop]) (by simp) hdot

theorem startTypeDefinition_trackerInv (names : List String) (st : ScopeTracker)
    (tn : String) (hmem : tn ∈ names) (hw : wordOnly tn) :
    trackerInv names (st.startTypeDefinition tn) := by
  refine ⟨?_, ?_, ?_⟩
  · intro seg hseg
    rw [List.mem_singleton.mp hseg]
    exact hw
  · intro hf
    simp [ScopeTracker.startTypeDefinition] at hf
  · intro _
    exact ⟨by simp [ScopeTracker.startTypeDefinition], tn, hmem, rfl⟩

theorem nestedScanStep_inv (names : List String) (ln : String)
    (hln : ∀ t, extractTypeDefinitionName (trimS ln) = some t → t ∈ names)
    (acc : List EnumInfo) (st : ScopeTracker)
    (hst : trackerInv names st) (hacc : ∀ r ∈ acc, nestedRecOk names r) :
    (∀ r ∈ (nestedScanLine acc st ln).1, nestedRecOk names r) ∧
    trackerInv names (nestedScanLine acc st ln).2 := by
  unfold nestedScanLine
  dsimp only
  by_cases hskip : shouldSkipLine (trimS ln) = true
  · rw [if_pos hskip]
    exact ⟨hacc, hst⟩
  · rw [if_neg hskip]
    cases htd : extractTypeDefinitionName (trimS ln) with
    | some tn =>
      dsimp only
      have hstart := startTypeDefinition_trackerInv names st tn (hln tn htd)
        (extractTypeDefinitionName_wordOnly _ _ htd)
      by_cases hbr : strIncludes (trimS ln) "\x7b" = true
      · rw [if_pos hbr]
        exact ⟨hacc, adjustNestingLevel_trackerInv names (st.startTypeDefinition tn) 1 hstart⟩
      · rw [if_neg hbr]
        exact ⟨hacc, hstart⟩
    | none =>
      dsimp only
      by_cases hit : st.isInTypeDefinition = true
      · have hnit : ¬ ((!st.isInTypeDefinition) = true) := by
          rw [hit]
          simp
        rw [if_neg hnit]
        cases hno : extractNestedObjectProperty (trimS ln) with
        | some prop =>
          dsimp only
          exact ⟨hacc, enterNestedObject_trackerInv names st prop _ hst hit
            (extractNestedObjectProperty_wordOnly _ _ hno)⟩
        | none =>
          dsimp only
          cases hu : extractUnionTypeProperty (trimS ln) with
          | some p =>
            obtain ⟨prop, td⟩ := p
            dsimp only
            by_cases hctx : st.contextPath.isEmpty = true
            · rw [if_pos hctx]
              refine ⟨hacc, ?_⟩
              by_cases hclo : countOccurrences (trimS ln) rBraceC > 0
              · rw [if_pos hclo]
                exact exitScope_trackerInv names st _ hst
              · rw [if_neg hclo]
                exact hst
            · rw [if_neg hctx]
              by_cases hbrace : hasObjectOpeningBrace (trimS ln) = true
              · rw [if_pos hbrace]
                exact ⟨hacc, enterNestedObject_trackerInv names st prop _ hst hit
                  (extractUnionTypeProperty_wordOnly _ prop td (by rw [hu]))⟩
              · rw [if_neg hbrace]
                constructor
                · intro r hr
                  dsimp only at hr
                  by_cases hemp : (List.map String.mk
                      (extractEnumValuesL (trimL (stripTrailingSemiComma td.data)))).isEmpty = true
                  · rw [if_pos hemp] at hr
                    exact hacc r hr
                  · rw [if_neg hemp] at hr
                    rcases List.mem_append.mp hr with hr1 | hr1
                    · exact hacc r hr1
                    · rw [List.mem_singleton.mp hr1]
                      have hpo := recordPath_ok names st prop hst hit
                        (extractUnionTypeProperty_wordOnly _ prop td (by rw [hu]))
                      exact ⟨hpo.1, hpo.2⟩
                · dsimp only
                  by_cases hclo : countOccurrences (trimS ln) rBraceC > 0
                  · rw [if_pos hclo]
                    exact exitScope_trackerInv names st _ hst
                  · rw [if_neg hclo]
                    exact hst
          | none =>
            dsimp only
            refine ⟨hacc, ?_⟩
            by_cases hop : countOccurrences (trimS ln) lBraceC > 0
            · rw [if_pos hop]
              by_cases hclo : countOccurrences (trimS ln) rBraceC > 0
              · rw [if_pos hclo]
                exact adjustNestingLevel_trackerInv names (st.exitScope _) _
                  (exitScope_trackerInv names st _ hst)
              · rw [if_neg hclo]
                exact adjustNestingLevel_trackerInv names st _ hst
            · rw [if_neg hop]
              by_cases hclo : countOccurrences (trimS ln) rBraceC > 0
              · rw [if_pos hclo]
                exact exitScope_trackerInv names st _ hst
              · rw [if_neg hclo]
                exact hst
      · have hit2 : (!st.isInTypeDefinition) = true := by
          cases h2 : st.isInTypeDefinition
          · rfl
          · exact absurd h2 hit
        rw [if_pos hit2]
        exact ⟨hacc, hst⟩

/-- The per-line invariant extends to the fold over a list of lines. -/
theorem nestedScan_fold_inv (names : List String) (lns : List String)
    (hlns : ∀ ln ∈ lns, ∀ t, extractTypeDefinitionName (trimS ln) = some t → t ∈ names)
    (acc : List EnumInfo) (st : ScopeTracker)
    (hst : trackerInv names st) (hacc : ∀ r ∈ acc, nestedRecOk names r) :
    (∀ r ∈ (lns.foldl nestedScanStep (acc, st)).1, nestedRecOk names r) ∧
    trackerInv names (lns.foldl nestedScanStep (acc, st)).2 := by
  induction lns generalizing acc st with
  | nil => exact ⟨hacc, hst⟩
  | cons ln rest ih =>
    rw [List.foldl_cons]
    have h := nestedScanStep_inv names ln (hlns ln (List.mem_cons_self ln rest)) acc st hst hacc
    exact ih (fun l hl => hlns l (List.mem_cons_of_mem ln hl)) _ _ h.2 h.1

/-- The initial tracker state satisfies the invariant. -/
theorem trackerInv_initial (names : List String) : trackerInv names ScopeTracker.initial := by
  refine ⟨?_, fun _ => rfl, ?_⟩
  · intro seg hseg
    exact absurd hseg (List.not_mem_nil seg)
  · intro hc
    exact absurd hc (by simp [ScopeTracker.initial])

/-- Every record produced by the nested sub-scan has a word-and-dot-only
path whose first dot-segment is one of the type-definition captures of
the input. -/
theorem nested_records_ok (content : String) :
    ∀ r ∈ extractEnumsFromNestedTypeProperties content,
      nestedRecOk (typeDefNames content) r := by
  have h := nestedScan_fold_inv (typeDefNames content) (linesOf content)
    (fun ln hln t ht => List.mem_filterMap.mpr ⟨ln, hln, ht⟩)
    [] ScopeTracker.initial (trackerInv_initial _)
    (fun r hr => absurd hr (List.not_mem_nil r))
  exact h.1

/-- Every record of sub-scan A has `export type ` + name as its path, so
the path contains a space. -/
theorem standaloneRecordOfLine_path_space (line : String) (r : EnumInfo)
    (h : standaloneRecordOfLine line = some r) : ' ' ∈ r.originalTypePath.data := by
  unfold standaloneRecordOfLine at h
  cases h1 : matchTypeDefHead line.data with
  | none => rw [h1] at h; exact absurd h (by simp)
  | some p =>
    obtain ⟨tn, rest⟩ := p
    rw [h1] at h
    dsimp only at h
    cases h2 : typeDefExprOfRest rest with
    | none => rw [h2] at h; exact absurd h (by simp)
    | some expr =>
      rw [h2] at h
      dsimp only at h
      by_cases he : ((extractEnumValuesL (trimL (stripTrailingSemi expr))).map String.mk).isEmpty = true
      · rw [if_pos he] at h
        exact absurd h (by simp)
      · rw [if_neg he] at h
        injection h with h3
        rw [← h3]
        show ' ' ∈ ("export type " ++ tn).data
        rw [String.data_append]
        exact List.mem_append.mpr (Or.inl (by decide))

/-- C8 (counterexample): within a single sub-scan, paths can repeat: two
`export type X` lines yield two records with identical paths, so the
records of one extraction pass need not have pairwise distinct
`originalTypePath` values. -/
theorem c8_duplicate_paths_counterexample :
    ¬ (parseEnumsFromTypeFile "export type X = 'a' | 'b';\nexport type X = 'c' | 'd';").Pairwise
      (fun a b => a.originalTypePath ≠ b.originalTypePath) := by decide

/-- C8 (amended): paths never collide across the two sub-scans: every
standalone record's path contains a space (`export type ` + name) while
every nested record's path consists of word characters and dots only. -/
theorem c8_cross_scan_paths_distinct (content : String) (r1 r2 : EnumInfo)
    (h1 : r1 ∈ parseStandaloneTypes content)
    (h2 : r2 ∈ extractEnumsFromNestedTypeProperties content) :
    r1.originalTypePath ≠ r2.originalTypePath := by
  intro heq
  obtain ⟨line, _, hsl⟩ := List.mem_filterMap.mp h1
  have hs := standaloneRecordOfLine_path_space line r1 hsl
  have hn := (nested_records_ok content r2 h2).1
  rw [heq] at hs
  rcases hn ' ' hs with hw | hd
  · exact absurd hw (by decide)
  · exact absurd hd (by decide)

/-- Witness: on a file with one standalone union and one nested union,
the standalone record and the nested record have distinct paths. -/
theorem c8_cross_scan_paths_distinct_witness :
    (⟨"xValues", ["a", "b"], "export type X"⟩ : EnumInfo) ∈
      parseStandaloneTypes "export type X = 'a' | 'b';\nexport type Y = \x7b\n  z: 'p' | 'q';\n\x7d;" ∧
    (⟨"zValues", ["p", "q"], "Y.z"⟩ : EnumInfo) ∈
      extractEnumsFromNestedTypeProperties "export type X = 'a' | 'b';\nexport type Y = \x7b\n  z: 'p' | 'q';\n\x7d;" ∧
    (⟨"xValues", ["a", "b"], "export type X"⟩ : EnumInfo).originalTypePath ≠
      (⟨"zValues", ["p", "q"], "Y.z"⟩ : EnumInfo).originalTypePath :=
  ⟨by decide, by decide,
   c8_cross_scan_paths_distinct
     "export type X = 'a' | 'b';\nexport type Y = \x7b\n  z: 'p' | 'q';\n\x7d;"
     ⟨"xValues", ["a", "b"], "export type X"⟩ ⟨"zValues", ["p", "q"], "Y.z"⟩
     (by decide) (by decide)⟩

/-- C10: the scope tracker never pops the root segment of the context
path: `exitScope` either resets to the empty path (on leaving the type
definition when the nesting level reaches zero) or keeps the head
segment; consequently every record produced by the nested sub-scan has a
path whose first dot-segment is one of the input's type-definition
captures. -/
theorem c10_root_segment_preserved :
    (∀ (st : ScopeTracker) (n : Nat), st.contextPath ≠ [] →
      (st.exitScope n).contextPath = [] ∨
      (st.exitScope n).contextPath.head? = st.contextPath.head?) ∧
    (∀ (content : String) (r : EnumInfo),
      r ∈ extractEnumsFromNestedTypeProperties content →
      ∃ t, t ∈ typeDefNames content ∧ (splitS '.' r.originalTypePath).head? = some t) := by
  constructor
  · intro st n hne
    simp only [ScopeTracker.exitScope]
    split
    · exact Or.inl rfl
    · exact Or.inr (popSegments_head n st.contextPath hne).2
  · intro content r hr
    exact (nested_records_ok content r hr).2

/-- Witness: popping one scope from the two-segment path `A.b` keeps the
root `A`; the record of a one-property nested type has first dot-segment
`Y`, the captured type-definition name. -/
theorem c10_root_segment_preserved_witness :
    ((({ contextPath := ["A", "b"], nestingLevel := 3, isInTypeDefinition := true } : ScopeTracker).exitScope 1).contextPath = [] ∨
      (({ contextPath := ["A", "b"], nestingLevel := 3, isInTypeDefinition := true } : ScopeTracker).exitScope 1).contextPath.head? =
        ({ contextPath := ["A", "b"], nestingLevel := 3, isInTypeDefinition := true } : ScopeTracker).contextPath.head?) ∧
    (∃ t, t ∈ typeDefNames "export type Y = \x7b\n  w: 'p' | 'q';\n\x7d;" ∧
      (splitS '.' (⟨"wValues", ["p", "q"], "Y.w"⟩ : EnumInfo).originalTypePath).head? = some t) :=
  ⟨c10_root_segment_preserved.1 _ 1 (by decide),
   c10_root_segment_preserved.2 "export type Y = \x7b\n  w: 'p' | 'q';\n\x7d;"
     ⟨"wValues", ["p", "q"], "Y.w"⟩ (by decide)⟩

/-- Packing a valid code point and unpacking it is the identity. -/
theorem toNat_charOfNat (n : Nat) (h : n.isValidChar) : (Char.ofNat n).toNat = n := by
  rw [Char.ofNat, dif_pos h]
  rfl

/-- Upper-casing cannot produce a colon from a non-colon. -/
theorem jsToUpperChar_ne_colon (c : Char) (hc : c ≠ ':') : jsToUpperChar c ≠ ':' := by
  unfold jsToUpperChar
  by_cases hl : isAsciiLower c = true
  · rw [if_pos hl]
    simp only [isAsciiLower, Bool.and_eq_true, decide_eq_true_eq] at hl
    obtain ⟨h1, h2⟩ := hl
    have hb1 : 97 ≤ c.toNat := h1
    have hb2 : c.toNat ≤ 122 := h2
    intro he
    have hv : (Char.ofNat (c.toNat - 32)).toNat = c.toNat - 32 :=
      toNat_charOfNat _ (Or.inl (by omega))
    rw [he] at hv
    have hv2 : (58 : Nat) = c.toNat - 32 := hv
    omega
  · rw [if_neg hl]
    exact hc

/-- Concatenation preserves colon-freeness. -/
theorem colonFree_append (a b : String) (ha : colonFree a) (hb : colonFree b) :
    colonFree (a ++ b) := by
  intro c hc
  rw [String.data_append] at hc
  rcases List.mem_append.mp hc with h | h
  · exact ha c h
  · exact hb c h

/-- Capitalizing the first character preserves colon-freeness. -/
theorem colonFree_capitalizeFirst (s : String) (h : colonFree s) :
    colonFree (capitalizeFirst s) := by
  unfold capitalizeFirst
  cases hs : s.data with
  | nil =>
    intro c hc
    exact absurd hc (List.not_mem_nil c)
  | cons c0 cs =>
    intro c hc
    rcases List.mem_cons.mp hc with h1 | h1
    · rw [h1]
      exact jsToUpperChar_ne_colon c0 (h c0 (by rw [hs]; exact List.mem_cons_self c0 cs))
    · exact h c (by rw [hs]; exact List.mem_cons_of_mem c0 h1)

/-- A colon-free prefix determines the decomposition around the first
colon of a composite key (character-list level). -/
theorem colon_append_inj_list : ∀ (a b k1 k2 : List Char),
    (∀ c ∈ a, c ≠ ':') → (∀ c ∈ b, c ≠ ':') →
    a ++ ':' :: k1 = b ++ ':' :: k2 → a = b ∧ k1 = k2 := by
  intro a
  induction a with
  | nil =>
    intro b k1 k2 _ hb h
    cases b with
    | nil =>
      rw [List.nil_append, List.nil_append] at h
      injection h with h1 h2
      exact ⟨rfl, h2⟩
    | cons c t =>
      rw [List.nil_append, List.cons_append] at h
      injection h with h1 h2
      exact absurd h1.symm (hb c (List.mem_cons_self c t))
  | cons x xs ih =>
    intro b k1 k2 ha hb h
    cases b with
    | nil =>
      rw [List.nil_append, List.cons_append] at h
      injection h with h1 h2
      exact absurd h1 (ha x (List.mem_cons_self x xs))
    | cons y t =>
      rw [List.cons_append, List.cons_append] at h
      injection h with h1 h2
      obtain ⟨hab, hk⟩ := ih t k1 k2 (fun c hc => ha c (List.mem_cons_of_mem _ hc))
        (fun c hc => hb c (List.mem_cons_of_mem _ hc)) h2
      exact ⟨by rw [h1, hab], hk⟩

/-- Injectivity of the composite Map keys when the name parts are
colon-free. -/
theorem colon_append_inj (n1 k1 n2 k2 : String)
    (h1 : colonFree n1) (h2 : colonFree n2)
    (h : n1 ++ ":" ++ k1 = n2 ++ ":" ++ k2) : n1 = n2 ∧ k1 = k2 := by
  have hd : n1.data ++ ':' :: k1.data = n2.data ++ ':' :: k2.data := by
    have h0 := congrArg String.data h
    rw [String.data_append, String.data_append, String.data_append, String.data_append] at h0
    rw [List.append_assoc, List.append_assoc] at h0
    exact h0
  obtain ⟨ha, hk⟩ := colon_append_inj_list n1.data n2.data k1.data k2.data h1 h2 hd
  exact ⟨String.ext ha, String.ext hk⟩

/-- The first-seen key list has no duplicates. -/
theorem firstSeenKeys_nodup (l : List String) : (firstSeenKeys l).Nodup := by
  induction l with
  | nil => exact List.nodup_nil
  | cons k ks ih =>
    unfold firstSeenKeys
    refine List.Nodup.cons ?_ (List.Nodup.filter _ ih)
    intro hm
    have h2 := (List.mem_filter.mp hm).2
    simp at h2

/-- Membership in the first-seen key list. -/
theorem mem_firstSeenKeys (x : String) : ∀ (l : List String), x ∈ firstSeenKeys l ↔ x ∈ l := by
  intro l
  induction l with
  | nil => exact Iff.rfl
  | cons k ks ih =>
    unfold firstSeenKeys
    constructor
    · intro h
      rcases List.mem_cons.mp h with h | h
      · rw [h]; exact List.mem_cons_self k ks
      · exact List.mem_cons_of_mem k (ih.mp (List.mem_of_mem_filter h))
    · intro h
      by_cases hxk : x = k
      · rw [hxk]; exact List.mem_cons_self _ _
      · rcases List.mem_cons.mp h with h | h
        · exact absurd h hxk
        · exact List.mem_cons_of_mem _ (List.mem_filter.mpr ⟨ih.mpr h, by simp [hxk]⟩)

/-- On a duplicate-free list the first-seen key list is the identity. -/
theorem firstSeenKeys_eq_self (l : List String) (h : l.Nodup) : firstSeenKeys l = l := by
  induction l with
  | nil => rfl
  | cons k ks ih =>
    unfold firstSeenKeys
    have hk : k ∉ ks := (List.nodup_cons.mp h).1
    rw [ih (List.nodup_cons.mp h).2]
    congr 1
    apply List.filter_eq_self.mpr
    intro x hx
    simp only [ne_eq, decide_eq_true_eq]
    intro he
    rw [he] at hx
    exact hk hx

/-- Map over a flat map. -/
theorem map_flatMap_own {α β γ : Type} (l : List α) (f : α → List β) (g : β → γ) :
    (l.flatMap f).map g = l.flatMap (fun a => (f a).map g) := by
  induction l with
  | nil => rfl
  | cons a t ih => rw [List.flatMap_cons, List.flatMap_cons, List.map_append, ih]

/-- Congruence of flat maps over the members. -/
theorem flatMap_congr_mem {α β : Type} (l : List α) (f g : α → List β)
    (h : ∀ a ∈ l, f a = g a) : l.flatMap f = l.flatMap g := by
  induction l with
  | nil => rfl
  | cons a t ih =>
    rw [List.flatMap_cons, List.flatMap_cons, h a (List.mem_cons_self a t),
      ih (fun x hx => h x (List.mem_cons_of_mem a hx))]

/-- Grouping a list by a key function over a duplicate-free key list
covering all keys is a permutation of the list. -/
theorem flatMap_filter_perm {α : Type} (f : α → String) [DecidableEq α] :
    ∀ (ks : List String) (l : List α), ks.Nodup → (∀ x ∈ l, f x ∈ ks) →
    (ks.flatMap (fun n => l.filter (fun e => f e = n))).Perm l := by
  intro ks
  induction ks with
  | nil =>
    intro l _ hl
    have h0 : l = [] :=
      List.eq_nil_iff_forall_not_mem.mpr (fun x hx => absurd (hl x hx) (List.not_mem_nil _))
    rw [h0]
    exact List.Perm.refl _
  | cons k ks ih =>
    intro l hnd hl
    rw [List.flatMap_cons]
    have htail : ∀ n ∈ ks, l.filter (fun e => f e = n) =
        (l.filter (fun e => ¬ (f e = k))).filter (fun e => f e = n) := by
      intro n hn
      rw [List.filter_filter]
      apply List.filter_congr
      intro x _
      by_cases hfx : f x = n
      · have hnk : ¬ (n = k) := by
          intro hnk
          rw [hnk] at hn
          exact (List.nodup_cons.mp hnd).1 hn
        simp [hfx, hnk]
      · simp [hfx]
    rw [flatMap_congr_mem ks _ _ htail]
    have hperm2 := ih (l.filter (fun e => ¬ (f e = k))) (List.nodup_cons.mp hnd).2 ?hmem
    case hmem =>
      intro x hx
      have hx1 := List.mem_filter.mp hx
      have hx2 : f x ≠ k := by
        have := hx1.2
        simpa using this
      rcases List.mem_cons.mp (hl x hx1.1) with h | h
      · exact absurd h hx2
      · exact h
    have hstep := List.Perm.append_left (l.filter (fun e => f e = k)) hperm2
    refine hstep.trans ?_
    have hfinal : l.filter (fun e => ¬ (f e = k)) =
        l.filter (fun e => !(decide (f e = k))) := by
      apply List.filter_congr
      intro x _
      exact decide_not ..
    rw [hfinal]
    exact List.filter_append_perm _ l

/-- The best-scored candidate is one of the candidates. -/
theorem chooseBest_mem (e : EnumInfo) (rest : List EnumInfo) :
    rest.foldl (fun best x => if jsScore x > jsScore best then x else best) e ∈ e :: rest := by
  induction rest generalizing e with
  | nil => exact List.mem_singleton.mpr rfl
  | cons x xs ih =>
    rw [List.foldl_cons]
    rcases List.mem_cons.mp (ih (if jsScore x > jsScore e then x else e)) with h | h
    · by_cases hc : jsScore x > jsScore e
      · rw [if_pos hc] at h ⊢
        rw [h]
        exact List.mem_cons_of_mem _ (List.mem_cons_self x xs)
      · rw [if_neg hc] at h ⊢
        rw [h]
        exact List.mem_cons_self e (x :: xs)
    · exact List.mem_cons_of_mem _ (List.mem_cons_of_mem _ h)

/-- When the key occurs, its representative is a member of its filter
group. -/
theorem mergeRep_mem_filter (enums : List EnumInfo) (k : String)
    (hk : k ∈ enums.map sortedValuesKey) :
    mergeRep enums k ∈ enums.filter (fun e => sortedValuesKey e = k) := by
  obtain ⟨e, he, hek⟩ := List.mem_map.mp hk
  have hef : e ∈ enums.filter (fun x => sortedValuesKey x = k) :=
    List.mem_filter.mpr ⟨he, by simp [hek]⟩
  unfold mergeRep
  cases h : enums.filter (fun e => sortedValuesKey e = k) with
  | nil =>
    rw [h] at hef
    exact absurd hef (List.not_mem_nil e)
  | cons e1 rest =>
    cases rest with
    | nil => exact List.mem_singleton.mpr rfl
    | cons e2 rest2 =>
      show chooseBestEnumForMerging (e1 :: e2 :: rest2) ∈ e1 :: e2 :: rest2
      exact chooseBest_mem e1 (e2 :: rest2)

/-- The representative belongs to the record list. -/
theorem mergeRep_mem (enums : List EnumInfo) (k : String)
    (hk : k ∈ enums.map sortedValuesKey) : mergeRep enums k ∈ enums :=
  (List.mem_filter.mp (mergeRep_mem_filter enums k hk)).1

/-- The representative carries its group's sorted-values key. -/
theorem mergeRep_key (enums : List EnumInfo) (k : String)
    (hk : k ∈ enums.map sortedValuesKey) : sortedValuesKey (mergeRep enums k) = k :=
  of_decide_eq_true (List.mem_filter.mp (mergeRep_mem_filter enums k hk)).2

/-- One step of the value-merge fold, expressed through the
representative and its full key. -/
theorem valueMergeStep_eq (enums : List EnumInfo) (m : List (String × EnumInfo)) (k : String) :
    valueMergeStep enums m k = mapSet m (mergeKey enums k) (mergeRep enums k) := by
  simp only [valueMergeStep, mergeKey, mergeRep]
  cases h : enums.filter (fun e => sortedValuesKey e = k) with
  | nil => rfl
  | cons e rest =>
    cases rest with
    | nil => rfl
    | cons e2 rest2 => rfl

/-- Closed form of the value-merge fold: with colon-free names and
duplicate-free keys, every step appends a fresh Map entry. -/
theorem valueMerge_fold_closed (enums : List EnumInfo)
    (hcf : ∀ e ∈ enums, colonFree e.name) :
    ∀ (ks : List String) (m : List (String × EnumInfo)),
    (∀ k ∈ ks, k ∈ enums.map sortedValuesKey) → ks.Nodup →
    (∀ p ∈ m, ∀ k ∈ ks, p.1 ≠ mergeKey enums k) →
    ks.foldl (valueMergeStep enums) m =
      m ++ ks.map (fun k => (mergeKey enums k, mergeRep enums k)) := by
  intro ks
  induction ks with
  | nil =>
    intro m _ _ _
    simp
  | cons k ks ih =>
    intro m hmem hnd hfresh
    rw [List.foldl_cons, valueMergeStep_eq]
    have hfreshk : ¬ (m.any (fun p => p.1 = mergeKey enums k) = true) := by
      intro hany
      obtain ⟨p, hp, hpk⟩ := List.any_eq_true.mp hany
      exact hfresh p hp k (List.mem_cons_self k ks) (of_decide_eq_true hpk)
    rw [mapSet, if_neg hfreshk]
    rw [ih (m ++ [(mergeKey enums k, mergeRep enums k)])
      (fun k' hk' => hmem k' (List.mem_cons_of_mem _ hk')) (List.nodup_cons.mp hnd).2 ?fresh]
    · rw [List.append_assoc]
      rfl
    case fresh =>
      intro p hp k' hk'
      rcases List.mem_append.mp hp with hp1 | hp1
      · exact hfresh p hp1 k' (List.mem_cons_of_mem _ hk')
      · rw [List.mem_singleton.mp hp1]
        intro hkk
        have h1 : colonFree (mergeRep enums k).name :=
          hcf _ (mergeRep_mem enums k (hmem k (List.mem_cons_self k ks)))
        have h2 : colonFree (mergeRep enums k').name :=
          hcf _ (mergeRep_mem enums k' (hmem k' (List.mem_cons_of_mem _ hk')))
      
        have hk2 := (colon_append_inj _ _ _ _ h1 h2 hkk).2
        exact (List.nodup_cons.mp hnd).1 (hk2 ▸ hk')

/-- Closed form of the whole value-merge pass under colon-free names. -/
theorem valueMergePass_eq (enums : List EnumInfo)
    (hcf : ∀ e ∈ enums, colonFree e.name) :
    valueMergePass enums =
      (firstSeenKeys (enums.map sortedValuesKey)).map (mergeRep enums) := by
  unfold valueMergePass
  rw [valueMerge_fold_closed enums hcf _ []
    (fun k hk => (mem_firstSeenKeys k _).mp hk) (firstSeenKeys_nodup _)
    (fun p hp => absurd hp (List.not_mem_nil p))]
  rw [List.nil_append, List.map_map]
  rfl

/-- Keys of the value-merge pass: exactly the first-seen distinct keys
of the input. -/
theorem valueMergePass_keys (enums : List EnumInfo)
    (hcf : ∀ e ∈ enums, colonFree e.name) :
    (valueMergePass enums).map sortedValuesKey =
      firstSeenKeys (enums.map sortedValuesKey) := by
  rw [valueMergePass_eq enums hcf, List.map_map]
  conv_rhs => rw [← List.map_id (firstSeenKeys (enums.map sortedValuesKey))]
  apply List.map_congr_left
  intro k hk
  exact mergeRep_key enums k ((mem_firstSeenKeys k _).mp hk)

/-- Mapping each key of a duplicate-free-keyed list to its
representative recovers the list. -/
theorem map_mergeRep_self : ∀ (x : List EnumInfo), (x.map sortedValuesKey).Nodup →
    (x.map sortedValuesKey).map (mergeRep x) = x := by
  intro x
  induction x with
  | nil => intro _; rfl
  | cons e t ih =>
    intro hnd
    rw [List.map_cons] at hnd
    obtain ⟨hke, hndt⟩ := List.nodup_cons.mp hnd
    rw [List.map_cons, List.map_cons]
    congr 1
    · unfold mergeRep
      have hgrp : (e :: t).filter (fun x => sortedValuesKey x = sortedValuesKey e) = [e] := by
        rw [List.filter_cons_of_pos (by simp)]
        have h0 : t.filter (fun x => sortedValuesKey x = sortedValuesKey e) = [] := by
          rw [List.filter_eq_nil_iff]
          intro a ha
          simp only [decide_eq_true_eq]
          intro hkey
          exact hke (List.mem_map.mpr ⟨a, ha, hkey⟩)
        rw [h0]
      rw [hgrp]
    · have hcong : (t.map sortedValuesKey).map (mergeRep (e :: t)) =
          (t.map sortedValuesKey).map (mergeRep t) := by
        apply List.map_congr_left
        intro k hk
        have hne : ¬ (sortedValuesKey e = k) := fun he => hke (he ▸ hk)
        unfold mergeRep
        rw [List.filter_cons_of_neg (by simp [hne])]
      rw [hcong, ih hndt]

/-- On a list with duplicate-free keys and colon-free names the
value-merge pass is the identity. -/
theorem valueMergePass_id (x : List EnumInfo) (hcf : ∀ e ∈ x, colonFree e.name)
    (hnd : (x.map sortedValuesKey).Nodup) : valueMergePass x = x := by
  rw [valueMergePass_eq x hcf, firstSeenKeys_eq_self _ hnd, map_mergeRep_self x hnd]

/-- Mapping a rename-invariant function over the name-conflict pass
permutes its values over the input. -/
theorem nameConflictPass_map_perm {β : Type} (g : EnumInfo → β)
    (hg : ∀ e, g { e with name := generateContextualName e } = g e) (l : List EnumInfo) :
    ((nameConflictPass l).map g).Perm (l.map g) := by
  have h1 : (nameConflictPass l).map g =
      (firstSeenKeys (l.map (fun e => e.name))).flatMap
        (fun n => (l.filter (fun e => e.name = n)).map g) := by
    simp only [nameConflictPass]
    rw [map_flatMap_own]
    apply flatMap_congr_mem
    intro n _
    split
    · rfl
    · rw [List.map_map]
      apply List.map_congr_left
      intro e _
      exact hg e
  have h2 : (firstSeenKeys (l.map (fun e => e.name))).flatMap
      (fun n => (l.filter (fun e => e.name = n)).map g) =
      ((firstSeenKeys (l.map (fun e => e.name))).flatMap
        (fun n => l.filter (fun e => e.name = n))).map g :=
    (map_flatMap_own _ _ _).symm
  rw [h1, h2]
  exact (flatMap_filter_perm (fun e => e.name) _ l (firstSeenKeys_nodup _)
    (fun x hx => (mem_firstSeenKeys _ _).mpr (List.mem_map_of_mem _ hx))).map g

/-- Members of the name-conflict pass are input records, possibly with a
contextual rename. -/
theorem nameConflictPass_mem (l : List EnumInfo) (e' : EnumInfo)
    (h : e' ∈ nameConflictPass l) :
    ∃ e ∈ l, e' = e ∨ e' = { e with name := generateContextualName e } := by
  simp only [nameConflictPass] at h
  obtain ⟨n, hn, he⟩ := List.mem_flatMap.mp h
  by_cases hlen : (l.filter (fun e => e.name = n)).length = 1
  · rw [if_pos hlen] at he
    exact ⟨e', (List.mem_filter.mp he).1, Or.inl rfl⟩
  · rw [if_neg hlen] at he
    obtain ⟨e, hef, hee⟩ := List.mem_map.mp he
    exact ⟨e, (List.mem_filter.mp hef).1, Or.inr hee.symm⟩

set_option maxHeartbeats 1600000 in
/-- The context qualifier, when produced, is one of three literals. -/
theorem extractContextForConflict_mem (s c : String)
    (h : extractContextForConflict s = some c) :
    c = "query" ∨ c = "request" ∨ c = "response" := by
  simp only [extractContextForConflict] at h
  repeat' split at h
  all_goals first
    | (injection h with h2
       first
        | exact Or.inl h2.symm
        | exact Or.inr (Or.inl h2.symm)
        | exact Or.inr (Or.inr h2.symm))
    | exact absurd h (by simp)

/-- Every segment of a one-character split lies inside the original
character list. -/
theorem splitOnCharL_sub (sep : Char) : ∀ (cs : List Char) (x : List Char),
    x ∈ splitOnCharL sep cs → ∀ c ∈ x, c ∈ cs := by
  intro cs
  induction cs with
  | nil =>
    intro x hx c hc
    rw [List.mem_singleton.mp hx] at hc
    exact absurd hc (List.not_mem_nil c)
  | cons a t ih =>
    intro x hx c hc
    unfold splitOnCharL at hx
    cases hs : splitOnCharL sep t with
    | nil =>
      rw [hs] at hx
      rw [List.mem_singleton.mp hx] at hc
      exact absurd hc (List.not_mem_nil c)
    | cons h0 t0 =>
      rw [hs] at hx
      dsimp only at hx
      by_cases hasep : a = sep
      · rw [if_pos hasep] at hx
        rcases List.mem_cons.mp hx with h1 | h1
        · rw [h1] at hc
          exact absurd hc (List.not_mem_nil c)
        · exact List.mem_cons_of_mem a (ih x (by rw [hs]; exact h1) c hc)
      · rw [if_neg hasep] at hx
        rcases List.mem_cons.mp hx with h1 | h1
        · rw [h1] at hc
          rcases List.mem_cons.mp hc with h2 | h2
          · rw [h2]
            exact List.mem_cons_self a t
          · exact List.mem_cons_of_mem a
              (ih h0 (by rw [hs]; exact List.mem_cons_self h0 t0) c h2)
        · exact List.mem_cons_of_mem a
            (ih x (by rw [hs]; exact List.mem_cons_of_mem h0 h1) c hc)

/-- Splitting a colon-free string yields colon-free segments. -/
theorem colonFree_of_mem_splitS (s : String) (h : colonFree s) (x : String)
    (hx : x ∈ splitS '.' s) : colonFree x := by
  obtain ⟨xd, hxd, hxs⟩ := List.mem_map.mp hx
  intro c hc
  rw [← hxs] at hc
  exact h c (splitOnCharL_sub '.' s.data xd hxd c hc)

/-- A popped part is a member of the part list. -/
theorem jsPop_mem (parts : List String) (s : String) (h : jsPop parts = some s) :
    s ∈ parts := by
  unfold jsPop at h
  cases hl : parts.getLast? with
  | none =>
    rw [hl] at h
    exact absurd h (by simp)
  | some t =>
    rw [hl] at h
    dsimp only at h
    by_cases ht : t = ""
    · rw [if_pos ht] at h
      exact absurd h (by simp)
    · rw [if_neg ht] at h
      injection h with h2
      rw [← h2]
      exact List.mem_of_getLast?_eq_some hl

/-- The contextual rename keeps names colon-free when the original name
and path are colon-free. -/
theorem colonFree_generateContextualName (e : EnumInfo)
    (hn : colonFree e.name) (hp : colonFree e.originalTypePath) :
    colonFree (generateContextualName e) := by
  unfold generateContextualName
  cases hctx : extractContextForConflict e.originalTypePath with
  | none => exact hn
  | some ctx =>
    have hctxcf : colonFree ctx := by
      rcases extractContextForConflict_mem _ _ hctx with h | h | h <;> rw [h] <;> decide
    cases hfn : extractFieldName e.originalTypePath with
    | some fieldName =>
      exact colonFree_append _ _ hctxcf (colonFree_capitalizeFirst _
        (colonFree_of_mem_splitS _ hp _ (jsPop_mem _ _ hfn)))
    | none =>
      exact colonFree_append _ _ hctxcf (colonFree_capitalizeFirst _ hn)

/-- The name-conflict pass preserves colon-freeness of names and paths. -/
theorem nameConflictPass_colonFree (l : List EnumInfo)
    (h : ∀ e ∈ l, colonFree e.name ∧ colonFree e.originalTypePath) :
    ∀ e' ∈ nameConflictPass l, colonFree e'.name ∧ colonFree e'.originalTypePath := by
  intro e' he'
  obtain ⟨e, he, hcase⟩ := nameConflictPass_mem l e' he'
  rcases hcase with h1 | h1
  · rw [h1]
    exact h e he
  · rw [h1]
    exact ⟨colonFree_generateContextualName e (h e he).1 (h e he).2, (h e he).2⟩

/-- Deduplication preserves colon-freeness of names and paths. -/
theorem deduplicateEnums_colonFree (l : List EnumInfo)
    (h : ∀ e ∈ l, colonFree e.name ∧ colonFree e.originalTypePath) :
    ∀ e' ∈ deduplicateEnums l, colonFree e'.name ∧ colonFree e'.originalTypePath := by
  intro e' he'
  have h1 := nameConflictPass_colonFree l h
  unfold deduplicateEnums at he'
  rw [valueMergePass_eq _ (fun e he => (h1 e he).1)] at he'
  obtain ⟨k, hk, hke⟩ := List.mem_map.mp he'
  rw [← hke]
  exact h1 _ (mergeRep_mem _ k ((mem_firstSeenKeys k _).mp hk))

set_option maxRecDepth 100000 in
/-- C2 (counterexample): a colon inside a record name makes two distinct
composite Map keys coincide (`"x" + ":" + "y:z"` and
`"x:y" + ":" + "z"`), so the second entry overwrites the first and the
distinct value-set `y:z` of the input has no surviving record. -/
theorem c2_colon_key_collision_counterexample :
    sortedValuesKey (⟨"x", ["y:z"], "p1"⟩ : EnumInfo) = "y:z" ∧
    (⟨"x", ["y:z"], "p1"⟩ : EnumInfo) ∈
      ([⟨"x", ["y:z"], "p1"⟩, ⟨"x:y", ["z"], "p2"⟩] : List EnumInfo) ∧
    ¬ ∃ r ∈ deduplicateEnums [⟨"x", ["y:z"], "p1"⟩, ⟨"x:y", ["z"], "p2"⟩],
        sortedValuesKey r = "y:z" := by decide

/-- C2 (amended): when every record's name and path are colon-free, the
deduplication output carries each distinct sorted-values key of the
input on exactly one surviving record: the output keys are
duplicate-free and their set equals the input's key set. -/
theorem c2_value_sets_preserved (enums : List EnumInfo)
    (hcf : ∀ e ∈ enums, colonFree e.name ∧ colonFree e.originalTypePath) :
    ((deduplicateEnums enums).map sortedValuesKey).Nodup ∧
    ((deduplicateEnums enums).map sortedValuesKey).toFinset =
      (enums.map sortedValuesKey).toFinset := by
  have h1 := nameConflictPass_colonFree enums hcf
  have hkeys : (deduplicateEnums enums).map sortedValuesKey =
      firstSeenKeys ((nameConflictPass enums).map sortedValuesKey) :=
    valueMergePass_keys _ (fun e he => (h1 e he).1)
  constructor
  · rw [hkeys]
    exact firstSeenKeys_nodup _
  · rw [hkeys]
    have hperm : ((nameConflictPass enums).map sortedValuesKey).Perm
        (enums.map sortedValuesKey) :=
      nameConflictPass_map_perm sortedValuesKey (fun e => rfl) enums
    rw [← List.toFinset_eq_of_perm _ _ hperm]
    apply Finset.ext
    intro a
    simp only [List.mem_toFinset]
    exact mem_firstSeenKeys a _

set_option maxRecDepth 100000 in
/-- Witness: on two colon-free records sharing the value-set `v`, the
amended C2 statement holds at a concrete input. -/
theorem c2_value_sets_preserved_witness :
    (∀ e ∈ ([⟨"a", ["v"], "p"⟩, ⟨"b", ["v"], "q"⟩] : List EnumInfo),
      colonFree e.name ∧ colonFree e.originalTypePath) ∧
    ((deduplicateEnums [⟨"a", ["v"], "p"⟩, ⟨"b", ["v"], "q"⟩]).map sortedValuesKey).Nodup ∧
    ((deduplicateEnums [⟨"a", ["v"], "p"⟩, ⟨"b", ["v"], "q"⟩]).map sortedValuesKey).toFinset =
      (([⟨"a", ["v"], "p"⟩, ⟨"b", ["v"], "q"⟩] : List EnumInfo).map sortedValuesKey).toFinset :=
  ⟨by decide, (c2_value_sets_preserved _ (by decide)).1,
    (c2_value_sets_preserved _ (by decide)).2⟩

set_option maxRecDepth 100000 in
/-- C3 (counterexample): deduplication is not idempotent on the nose:
two survivors of a first round can share a name, so the second round
renames one of them and the record `queryStatus` of the first round's
output is not among the second round's records. -/
theorem c3_not_idempotent_counterexample :
    ¬ (∀ r ∈ deduplicateEnums [⟨"queryStatus", ["1"], "body.status"⟩,
          ⟨"t", ["2"], "query.status"⟩, ⟨"t", ["3"], "zz"⟩],
        r ∈ deduplicateEnums (deduplicateEnums [⟨"queryStatus", ["1"], "body.status"⟩,
          ⟨"t", ["2"], "query.status"⟩, ⟨"t", ["3"], "zz"⟩])) := by decide

/-- C3 (amended): on colon-free inputs a second deduplication changes at
most the names: the multiset of (values, path) pairs of the twice-run
output equals that of the once-run output. -/
theorem c3_dedup_idempotent_up_to_renaming (enums : List EnumInfo)
    (hcf : ∀ e ∈ enums, colonFree e.name ∧ colonFree e.originalTypePath) :
    ((deduplicateEnums (deduplicateEnums enums)).map
        (fun e => (e.values, e.originalTypePath))).Perm
      ((deduplicateEnums enums).map (fun e => (e.values, e.originalTypePath))) := by
  have hdcf := deduplicateEnums_colonFree enums hcf
  have hdkeys : (deduplicateEnums enums).map sortedValuesKey =
      firstSeenKeys ((nameConflictPass enums).map sortedValuesKey) :=
    valueMergePass_keys _ (fun e he => ((nameConflictPass_colonFree enums hcf) e he).1)
  have hdnd : ((deduplicateEnums enums).map sortedValuesKey).Nodup := by
    rw [hdkeys]
    exact firstSeenKeys_nodup _
  have hp1cf : ∀ e ∈ nameConflictPass (deduplicateEnums enums), colonFree e.name :=
    fun e he => ((nameConflictPass_colonFree _ hdcf) e he).1
  have hp1perm : ((nameConflictPass (deduplicateEnums enums)).map sortedValuesKey).Perm
      ((deduplicateEnums enums).map sortedValuesKey) :=
    nameConflictPass_map_perm sortedValuesKey (fun e => rfl) _
  have hp1nd : ((nameConflictPass (deduplicateEnums enums)).map sortedValuesKey).Nodup :=
    hp1perm.nodup_iff.mpr hdnd
  have hid : deduplicateEnums (deduplicateEnums enums) =
      nameConflictPass (deduplicateEnums enums) :=
    valueMergePass_id _ hp1cf hp1nd
  rw [hid]
  exact nameConflictPass_map_perm (fun e => (e.values, e.originalTypePath)) (fun e => rfl) _

set_option maxRecDepth 100000 in
/-- Witness: on two colon-free records sharing the value-set `w`, the
amended C3 statement holds at a concrete input. -/
theorem c3_dedup_idempotent_witness :
    (∀ e ∈ ([⟨"n1", ["w"], "r1"⟩, ⟨"n2", ["w"], "r2"⟩] : List EnumInfo),
      colonFree e.name ∧ colonFree e.originalTypePath) ∧
    ((deduplicateEnums (deduplicateEnums [⟨"n1", ["w"], "r1"⟩, ⟨"n2", ["w"], "r2"⟩])).map
        (fun e => (e.values, e.originalTypePath))).Perm
      ((deduplicateEnums [⟨"n1", ["w"], "r1"⟩, ⟨"n2", ["w"], "r2"⟩]).map
        (fun e => (e.values, e.originalTypePath))) :=
  ⟨by decide, c3_dedup_idempotent_up_to_renaming _ (by decide)⟩
